import Mathlib

/-!
Verification of the blockstack search indexer (`src/indexer.js`).

The profile documents handled by the indexer are arbitrary JSON-like
values (the code manipulates them as JavaScript objects).  We embed them
as `JValue`: ordered key/value lists stand for JavaScript objects
(`Object.keys` order = insertion order), `undefined` stands for the
`undefined` value produced by reading an absent property.

All functions of the source file that the claims mention are embedded
below, keeping their names: `cleanEntry`, `_getAllNames` /
`getAllNames`, `_getAllSubdomains` / `getAllSubdomains`, `fetchName`,
`fetchNames`, `processAllNames`, `createSearchIndex`.  Network fetches
(`fetch`, `lookupProfile`) are abstracted as function parameters; a
lookup that fails or times out is a `none` result (the code converts
both into a caught rejection).  Unbounded recursion (page walks, the
recursive sanitizer working on an object graph it mutates) is embedded
with an explicit fuel parameter; theorems quantify over sufficient fuel.
-/

inductive JValue where
  | undefined : JValue
  | null : JValue
  | bool : Bool → JValue
  | num : Int → JValue
  | str : String → JValue
  | arr : List JValue → JValue
  | obj : List (String × JValue) → JValue

abbrev JObj := List (String × JValue)

/-- `key.includes('.')` -/
def hasDot (s : String) : Bool := s.data.any (fun c => c = '.')

/-- `key.replace(/\./g, '_')` -/
def dotReplace (s : String) : String :=
  String.mk (s.data.map (fun c => if c = '.' then '_' else c))

/-- `key.startsWith('$')` -/
def startsDollar (s : String) : Bool :=
  match s.data with
  | [] => false
  | c :: _ => c = '$'

/-- `'_' + key.slice(1)` -/
def dollarRename (s : String) : String := String.mk ('_' :: s.data.drop 1)

/-- whether a JavaScript object (ordered key/value list) has the key -/
def hasKey (l : JObj) (k : String) : Bool := l.any (fun p => p.1 = k)

/-- property read `entry[key]`: `undefined` when the key is absent -/
def getJ : JObj → String → JValue
  | [], _ => .undefined
  | (k', v) :: rest, k => if k' = k then v else getJ rest k

/-- property write `entry[key] = v`: overwrites in place, else appends -/
def setJ (l : JObj) (k : String) (v : JValue) : JObj :=
  if hasKey l k then l.map (fun p => if p.1 = k then (k, v) else p)
  else l ++ [(k, v)]

/-- `delete entry[key]` -/
def delJ : JObj → String → JObj
  | [], _ => []
  | (k', v) :: rest, k => if k' = k then delJ rest k else (k', v) :: delJ rest k

/-- the body of the `Object.keys(entry).forEach` callback in `cleanEntry`
(src/indexer.js:77-93), for one snapshot key.  `clean` is the recursive
call `cleanEntry` applied to the value (a no-op on non-objects, matching
the `typeof(value) === 'object'` guard, since the embedded cleaner is
the identity on atoms).  The write-back models the in-place mutation of
the nested object: it only happens when the key is still present. -/
def cleanStepWith (clean : JValue → JValue) (entry : JObj) (key : String) : JObj :=
  let v := clean (getJ entry key)
  let e1 := if hasKey entry key then setJ entry key v else entry
  if hasDot key then
    let nk := dotReplace key
    let e2 := delJ (setJ e1 nk v) key
    if startsDollar nk then delJ (setJ e2 (dollarRename nk) v) nk else e2
  else
    if startsDollar key then delJ (setJ e1 (dollarRename key) v) key else e1

/-- `cleanEntry` (src/indexer.js:73-96) on an arbitrary value, with fuel
bounding the nesting depth of the recursion.  Objects fold the step over
the snapshot of their keys; arrays recurse into their elements (their
`Object.keys` are the indices, which never contain `.` nor start with
`$`); everything else (including `null`, for which the source returns
early) is left unchanged. -/
def cleanValueF : Nat → JValue → JValue
  | 0, v => v
  | f + 1, .obj kvs => .obj (List.foldl (cleanStepWith (cleanValueF f)) kvs (kvs.map Prod.fst))
  | f + 1, .arr xs => .arr (xs.map (cleanValueF f))
  | _ + 1, v => v

/-- the fold of `cleanEntry` over one object's snapshot keys -/
def cleanPairsF (f : Nat) (kvs : JObj) : JObj :=
  List.foldl (cleanStepWith (cleanValueF f)) kvs (kvs.map Prod.fst)

mutual
/-- nesting depth of a value (0 for atoms) -/
def depthV : JValue → Nat
  | .obj kvs => 1 + depthL kvs
  | .arr xs => 1 + depthA xs
  | _ => 0
def depthL : JObj → Nat
  | [] => 0
  | (_, v) :: rest => max (depthV v) (depthL rest)
def depthA : List JValue → Nat
  | [] => 0
  | v :: rest => max (depthV v) (depthA rest)
end

/-- `cleanEntry` on an object, as called by the source on profile
records: the depth of the values is sufficient fuel. -/
def cleanEntry (e : JObj) : JObj := cleanPairsF (depthL e) e

/-- `cleanEntry` on an arbitrary value (the source function accepts and
returns any value: falsy values and non-objects pass through). -/
def cleanEntryV (v : JValue) : JValue := cleanValueF (depthV v) v

example : cleanEntry [("a.b", JValue.num 1)] = [("a_b", JValue.num 1)] := rfl
example : cleanEntry [("$a", JValue.num 1)] = [("_a", JValue.num 1)] := rfl
example : cleanEntry [("$a.b", JValue.num 1)] = [("_a_b", JValue.num 1)] := rfl
example : cleanEntry [("a.b", JValue.num 1), ("a_b", JValue.num 2)] = [("a_b", JValue.num 1)] := rfl
example : cleanEntry [("$a.b", JValue.num 1), ("$a_b", JValue.num 2)] = [("_a_b", JValue.undefined)] := rfl
example : cleanEntryV (JValue.obj [("x", JValue.obj [("a.b", JValue.num 1)])])
    = JValue.obj [("x", JValue.obj [("a_b", JValue.num 1)])] := rfl

/-- a storage-safe key: no literal `.`, not starting with `$` -/
def goodKey (k : String) : Bool := !hasDot k && !startsDollar k

mutual
/-- every key at every nesting depth of the value is storage-safe -/
def goodKeysV : JValue → Bool
  | .obj kvs => goodKeysL kvs
  | .arr xs => goodKeysA xs
  | _ => true
def goodKeysL : JObj → Bool
  | [] => true
  | (k, v) :: rest => goodKey k && goodKeysV v && goodKeysL rest
def goodKeysA : List JValue → Bool
  | [] => true
  | v :: rest => goodKeysV v && goodKeysA rest
end

/-- the strings of the list are pairwise distinct -/
def dupFree : List String → Bool
  | [] => true
  | k :: rest => !rest.any (fun k' => k' = k) && dupFree rest

mutual
/-- every object at every nesting depth has pairwise distinct keys (true
of every value that arises from a JavaScript object graph) -/
def nodupV : JValue → Bool
  | .obj kvs => dupFree (kvs.map Prod.fst) && nodupL kvs
  | .arr xs => nodupA xs
  | _ => true
def nodupL : JObj → Bool
  | [] => true
  | (_, v) :: rest => nodupV v && nodupL rest
def nodupA : List JValue → Bool
  | [] => true
  | v :: rest => nodupV v && nodupA rest
end

theorem mem_setJ {l : JObj} {k : String} {v : JValue} {p : String × JValue}
    (h : p ∈ setJ l k v) : p = (k, v) ∨ (p ∈ l ∧ p.1 ≠ k) := by
  unfold setJ at h
  by_cases hk : hasKey l k
  · rw [if_pos hk] at h
    rcases List.mem_map.mp h with ⟨q, hq, he⟩
    by_cases hq1 : q.1 = k
    · rw [if_pos hq1] at he; left; exact he.symm
    · rw [if_neg hq1] at he; subst he; exact Or.inr ⟨hq, hq1⟩
  · rw [if_neg hk] at h
    rcases List.mem_append.mp h with h1 | h1
    · refine Or.inr ⟨h1, fun hpk => hk ?_⟩
      unfold hasKey
      simp only [List.any_eq_true, decide_eq_true_eq]
      exact ⟨p, h1, hpk⟩
    · left; simpa using h1

theorem mem_delJ {l : JObj} {k : String} {p : String × JValue}
    (h : p ∈ delJ l k) : p ∈ l ∧ p.1 ≠ k := by
  induction l with
  | nil => cases h
  | cons q rest ih =>
    obtain ⟨k', v'⟩ := q
    unfold delJ at h
    by_cases hk : k' = k
    · rw [if_pos hk] at h
      exact ⟨List.mem_cons_of_mem _ (ih h).1, (ih h).2⟩
    · rw [if_neg hk] at h
      rcases List.mem_cons.mp h with h1 | h1
      · subst h1; exact ⟨List.mem_cons_self _ _, hk⟩
      · exact ⟨List.mem_cons_of_mem _ (ih h1).1, (ih h1).2⟩

theorem not_hasKey_delJ (l : JObj) (k : String) : hasKey (delJ l k) k = false := by
  rw [Bool.eq_false_iff]
  intro h
  unfold hasKey at h
  simp only [List.any_eq_true, decide_eq_true_eq] at h
  obtain ⟨p, hp, hpk⟩ := h
  exact (mem_delJ hp).2 hpk

theorem hasKey_iff {l : JObj} {k : String} : hasKey l k = true ↔ ∃ p ∈ l, p.1 = k := by
  unfold hasKey
  simp

theorem getJ_undef_or_mem (l : JObj) (k : String) :
    getJ l k = .undefined ∨ (k, getJ l k) ∈ l := by
  induction l with
  | nil => exact Or.inl rfl
  | cons q rest ih =>
    obtain ⟨k', v'⟩ := q
    unfold getJ
    by_cases hk : k' = k
    · rw [if_pos hk]; subst hk; exact Or.inr (List.mem_cons_self _ _)
    · rw [if_neg hk]
      rcases ih with h | h
      · exact Or.inl h
      · exact Or.inr (List.mem_cons_of_mem _ h)

theorem depthL_le_iff {l : JObj} {n : Nat} :
    depthL l ≤ n ↔ ∀ p ∈ l, depthV p.2 ≤ n := by
  induction l with
  | nil => simp [depthL]
  | cons q rest ih =>
    obtain ⟨k', v'⟩ := q
    simp only [depthL, max_le_iff, List.mem_cons, ih]
    constructor
    · rintro ⟨h1, h2⟩ p (rfl | hp)
      · exact h1
      · exact h2 p hp
    · intro h
      exact ⟨h _ (Or.inl rfl), fun p hp => h p (Or.inr hp)⟩

theorem depthA_le_iff {l : List JValue} {n : Nat} :
    depthA l ≤ n ↔ ∀ v ∈ l, depthV v ≤ n := by
  induction l with
  | nil => simp [depthA]
  | cons v rest ih =>
    simp only [depthA, max_le_iff, List.mem_cons, ih]
    constructor
    · rintro ⟨h1, h2⟩ w (rfl | hw)
      · exact h1
      · exact h2 w hw
    · intro h
      exact ⟨h _ (Or.inl rfl), fun w hw => h w (Or.inr hw)⟩

theorem goodKeysL_iff {l : JObj} :
    goodKeysL l = true ↔ ∀ p ∈ l, goodKey p.1 = true ∧ goodKeysV p.2 = true := by
  induction l with
  | nil => simp [goodKeysL]
  | cons q rest ih =>
    obtain ⟨k', v'⟩ := q
    simp only [goodKeysL, Bool.and_eq_true, List.mem_cons, ih]
    constructor
    · rintro ⟨⟨h1, h2⟩, h3⟩ p (rfl | hp)
      · exact ⟨h1, h2⟩
      · exact h3 p hp
    · intro h
      exact ⟨⟨(h _ (Or.inl rfl)).1, (h _ (Or.inl rfl)).2⟩, fun p hp => h p (Or.inr hp)⟩

theorem goodKeysA_iff {l : List JValue} :
    goodKeysA l = true ↔ ∀ v ∈ l, goodKeysV v = true := by
  induction l with
  | nil => simp [goodKeysA]
  | cons v rest ih =>
    simp only [goodKeysA, Bool.and_eq_true, List.mem_cons, ih]
    constructor
    · rintro ⟨h1, h2⟩ w (rfl | hw)
      · exact h1
      · exact h2 w hw
    · intro h
      exact ⟨h _ (Or.inl rfl), fun w hw => h w (Or.inr hw)⟩

theorem nodupL_iff {l : JObj} :
    nodupL l = true ↔ ∀ p ∈ l, nodupV p.2 = true := by
  induction l with
  | nil => simp [nodupL]
  | cons q rest ih =>
    obtain ⟨k', v'⟩ := q
    simp only [nodupL, Bool.and_eq_true, List.mem_cons, ih]
    constructor
    · rintro ⟨h1, h2⟩ p (rfl | hp)
      · exact h1
      · exact h2 p hp
    · intro h
      exact ⟨h _ (Or.inl rfl), fun p hp => h p (Or.inr hp)⟩

theorem nodupA_iff {l : List JValue} :
    nodupA l = true ↔ ∀ v ∈ l, nodupV v = true := by
  induction l with
  | nil => simp [nodupA]
  | cons v rest ih =>
    simp only [nodupA, Bool.and_eq_true, List.mem_cons, ih]
    constructor
    · rintro ⟨h1, h2⟩ w (rfl | hw)
      · exact h1
      · exact h2 w hw
    · intro h
      exact ⟨h _ (Or.inl rfl), fun w hw => h w (Or.inr hw)⟩

theorem hasDot_eq_false_iff {s : String} : hasDot s = false ↔ ∀ c ∈ s.data, c ≠ '.' := by
  unfold hasDot
  simp only [Bool.eq_false_iff, ne_eq, List.any_eq_true, decide_eq_true_eq, not_exists]
  constructor
  · intro h c hc hceq
    exact h c ⟨hc, hceq⟩
  · rintro h c ⟨hc, hceq⟩
    exact h c hc hceq

theorem hasDot_dotReplace (s : String) : hasDot (dotReplace s) = false := by
  rw [hasDot_eq_false_iff]
  intro c hc
  rcases List.mem_map.mp hc with ⟨c', _, rfl⟩
  by_cases h : c' = '.'
  · rw [if_pos h]; decide
  · rw [if_neg h]; exact h

theorem startsDollar_dotReplace (s : String) :
    startsDollar (dotReplace s) = startsDollar s := by
  obtain ⟨d⟩ := s
  cases d with
  | nil => rfl
  | cons c rest =>
    simp only [startsDollar, dotReplace, List.map_cons]
    by_cases h : c = '.'
    · rw [if_pos h, h]; decide
    · rw [if_neg h]

theorem startsDollar_dollarRename (s : String) :
    startsDollar (dollarRename s) = false := rfl

theorem hasDot_dollarRename {s : String} (h : hasDot s = false) :
    hasDot (dollarRename s) = false := by
  rw [hasDot_eq_false_iff] at h ⊢
  intro c hc
  rcases List.mem_cons.mp hc with rfl | hc
  · decide
  · exact h c (List.mem_of_mem_drop hc)

theorem goodKey_dotReplace {s : String} (h : startsDollar (dotReplace s) = false) :
    goodKey (dotReplace s) = true := by
  unfold goodKey
  rw [hasDot_dotReplace, h]
  rfl

theorem goodKey_dollarRename {s : String} (h : hasDot s = false) :
    goodKey (dollarRename s) = true := by
  unfold goodKey
  rw [hasDot_dollarRename h, startsDollar_dollarRename]
  rfl

theorem goodKey_of {k : String} (h1 : hasDot k = false) (h2 : startsDollar k = false) :
    goodKey k = true := by
  unfold goodKey
  rw [h1, h2]
  rfl

/-- the key under which the processed value ends up after one step of
the sanitizer (the snapshot key after dot replacement and sigil
renaming, in the order the source applies them) -/
def stepFinalKey (key : String) : String :=
  if hasDot key then
    if startsDollar (dotReplace key) then dollarRename (dotReplace key) else dotReplace key
  else
    if startsDollar key then dollarRename key else key

theorem goodKey_stepFinalKey (key : String) : goodKey (stepFinalKey key) = true := by
  unfold stepFinalKey
  by_cases hd : hasDot key
  · rw [if_pos hd]
    by_cases hs : startsDollar (dotReplace key)
    · rw [if_pos hs]
      exact goodKey_dollarRename (hasDot_dotReplace key)
    · rw [if_neg hs]
      exact goodKey_dotReplace (Bool.eq_false_iff.mpr hs)
  · rw [if_neg hd]
    by_cases hs : startsDollar key
    · rw [if_pos hs]
      exact goodKey_dollarRename (Bool.eq_false_iff.mpr hd)
    · rw [if_neg hs]
      exact goodKey_of (Bool.eq_false_iff.mpr hd) (Bool.eq_false_iff.mpr hs)

theorem mem_cleanStep {clean : JValue → JValue} {s : JObj} {key : String}
    {p : String × JValue} (h : p ∈ cleanStepWith clean s key) :
    (p.1 = stepFinalKey key ∧ p.2 = clean (getJ s key)) ∨ (p ∈ s ∧ p.1 ≠ key) := by
  have he1 : ∀ {q : String × JValue},
      q ∈ (if hasKey s key then setJ s key (clean (getJ s key)) else s) →
      (q.1 = key ∧ q.2 = clean (getJ s key)) ∨ (q ∈ s ∧ q.1 ≠ key) := by
    intro q hq
    by_cases hk : hasKey s key
    · rw [if_pos hk] at hq
      rcases mem_setJ hq with rfl | ⟨hq1, hq2⟩
      · exact Or.inl ⟨rfl, rfl⟩
      · exact Or.inr ⟨hq1, hq2⟩
    · rw [if_neg hk] at hq
      refine Or.inr ⟨hq, fun hqk => hk (hasKey_iff.mpr ⟨q, hq, hqk⟩)⟩
  unfold cleanStepWith at h
  simp only at h
  by_cases hd : hasDot key
  · rw [if_pos hd] at h
    unfold stepFinalKey
    rw [if_pos hd]
    by_cases hs : startsDollar (dotReplace key)
    · rw [if_pos hs] at h ⊢
      obtain ⟨h, hpnk⟩ := mem_delJ h
      rcases mem_setJ h with rfl | ⟨h, _⟩
      · exact Or.inl ⟨rfl, rfl⟩
      · obtain ⟨h, hpk⟩ := mem_delJ h
        rcases mem_setJ h with rfl | ⟨h, hpnk2⟩
        · exact absurd rfl hpnk
        · rcases he1 h with ⟨h1, _⟩ | h1
          · exact absurd h1 hpk
          · exact Or.inr h1
    · rw [if_neg hs] at h ⊢
      obtain ⟨h, hpk⟩ := mem_delJ h
      rcases mem_setJ h with rfl | ⟨h, _⟩
      · exact Or.inl ⟨rfl, rfl⟩
      · rcases he1 h with ⟨h1, _⟩ | h1
        · exact absurd h1 hpk
        · exact Or.inr h1
  · rw [if_neg hd] at h
    unfold stepFinalKey
    rw [if_neg hd]
    by_cases hs : startsDollar key
    · rw [if_pos hs] at h ⊢
      obtain ⟨h, hpk⟩ := mem_delJ h
      rcases mem_setJ h with rfl | ⟨h, _⟩
      · exact Or.inl ⟨rfl, rfl⟩
      · rcases he1 h with ⟨h1, _⟩ | h1
        · exact absurd h1 hpk
        · exact Or.inr h1
    · rw [if_neg hs] at h ⊢
      rcases he1 h with ⟨h1, h2⟩ | h1
      · exact Or.inl ⟨h1, h2⟩
      · exact Or.inr h1

theorem foldlInv {α β : Type _} (step : β → α → β) (P : β → List α → Prop)
    (hstep : ∀ s a l, P s (a :: l) → P (step s a) l) :
    ∀ l s, P s l → P (List.foldl step s l) [] := by
  intro l
  induction l with
  | nil => intro s h; exact h
  | cons a rest ih =>
    intro s h
    exact ih _ (hstep s a rest h)

theorem foldl_fixed {α β : Type _} (step : β → α → β) (s : β) :
    ∀ l : List α, (∀ a ∈ l, step s a = s) → List.foldl step s l = s := by
  intro l
  induction l with
  | nil => intro _; rfl
  | cons a rest ih =>
    intro h
    show List.foldl step (step s a) rest = s
    rw [h a (List.mem_cons_self _ _)]
    exact ih fun b hb => h b (List.mem_cons_of_mem _ hb)

theorem cleanValueF_undef (f : Nat) : cleanValueF f .undefined = .undefined := by
  cases f <;> rfl

theorem depthV_cleanValueF_le : ∀ (f : Nat) (v : JValue),
    depthV (cleanValueF f v) ≤ depthV v := by
  intro f
  induction f with
  | zero => intro v; exact Nat.le_refl _
  | succ f ih =>
    intro v
    cases v with
    | obj kvs =>
      show depthV (.obj (List.foldl (cleanStepWith (cleanValueF f)) kvs (kvs.map Prod.fst)))
          ≤ depthV (.obj kvs)
      have key : ∀ s : JObj, depthL s ≤ depthL kvs →
          ∀ k, depthL (cleanStepWith (cleanValueF f) s k) ≤ depthL kvs := by
        intro s hs k
        rw [depthL_le_iff]
        intro p hp
        rcases mem_cleanStep hp with ⟨_, h2⟩ | ⟨h1, _⟩
        · rw [h2]
          refine le_trans (ih _) ?_
          rcases getJ_undef_or_mem s k with hg | hg
          · rw [hg]; exact Nat.zero_le _
          · exact le_trans (depthL_le_iff.mp hs _ hg) (le_refl _)
        · exact depthL_le_iff.mp hs _ h1
      have : depthL (List.foldl (cleanStepWith (cleanValueF f)) kvs (kvs.map Prod.fst))
          ≤ depthL kvs := by
        have := foldlInv (cleanStepWith (cleanValueF f))
          (fun s _ => depthL s ≤ depthL kvs)
          (fun s a l hs => key s hs a) (kvs.map Prod.fst) kvs (le_refl _)
        exact this
      show 1 + _ ≤ 1 + _
      exact Nat.add_le_add_left this 1
    | arr xs =>
      show depthV (.arr (xs.map (cleanValueF f))) ≤ depthV (.arr xs)
      have : depthA (xs.map (cleanValueF f)) ≤ depthA xs := by
        rw [depthA_le_iff]
        intro v hv
        rcases List.mem_map.mp hv with ⟨w, hw, rfl⟩
        exact le_trans (ih w) (depthA_le_iff.mp (le_refl _) w hw)
      show 1 + _ ≤ 1 + _
      exact Nat.add_le_add_left this 1
    | undefined => exact Nat.le_refl _
    | null => exact Nat.le_refl _
    | bool b => exact Nat.le_refl _
    | num n => exact Nat.le_refl _
    | str s => exact Nat.le_refl _

theorem goodKeysV_cleanValueF : ∀ (f : Nat) (v : JValue), depthV v ≤ f →
    goodKeysV (cleanValueF f v) = true := by
  intro f
  induction f with
  | zero =>
    intro v hv
    cases v with
    | obj kvs => exact absurd hv (by simp [depthV])
    | arr xs => exact absurd hv (by simp [depthV])
    | undefined => rfl
    | null => rfl
    | bool b => rfl
    | num n => rfl
    | str s => rfl
  | succ f ih =>
    intro v hv
    cases v with
    | obj kvs =>
      have hdl : depthL kvs ≤ f := by
        have : 1 + depthL kvs ≤ f + 1 := hv
        omega
      show goodKeysV (.obj (List.foldl (cleanStepWith (cleanValueF f)) kvs (kvs.map Prod.fst)))
          = true
      have main := foldlInv (cleanStepWith (cleanValueF f))
        (fun s rem => (∀ p ∈ s, depthV p.2 ≤ f) ∧
          (∀ p ∈ s, goodKey p.1 = true ∨ p.1 ∈ rem) ∧
          (∀ p ∈ s, p.1 ∉ rem → goodKeysV p.2 = true))
        ?_ (kvs.map Prod.fst) kvs ?_
      · obtain ⟨h1, h2, h3⟩ := main
        have : goodKeysL (List.foldl (cleanStepWith (cleanValueF f)) kvs (kvs.map Prod.fst))
            = true := by
          rw [goodKeysL_iff]
          intro p hp
          refine ⟨?_, h3 p hp (List.not_mem_nil _)⟩
          rcases h2 p hp with h | h
          · exact h
          · exact absurd h (List.not_mem_nil _)
        simpa [goodKeysV] using this
      · rintro s a l ⟨i1, i2, i3⟩
        have hread : depthV (getJ s a) ≤ f := by
          rcases getJ_undef_or_mem s a with hg | hg
          · rw [hg]; exact Nat.zero_le _
          · exact i1 _ hg
        have hval : depthV (cleanValueF f (getJ s a)) ≤ f :=
          le_trans (depthV_cleanValueF_le f _) hread
        refine ⟨?_, ?_, ?_⟩
        · intro p hp
          rcases mem_cleanStep hp with ⟨_, h2⟩ | ⟨h1, _⟩
          · rw [h2]; exact hval
          · exact i1 p h1
        · intro p hp
          rcases mem_cleanStep hp with ⟨h1, _⟩ | ⟨h1, hne⟩
          · rw [h1]; exact Or.inl (goodKey_stepFinalKey a)
          · rcases i2 p h1 with h | h
            · exact Or.inl h
            · rcases List.mem_cons.mp h with h' | h'
              · exact absurd h' hne
              · exact Or.inr h'
        · intro p hp hnl
          rcases mem_cleanStep hp with ⟨_, h2⟩ | ⟨h1, hne⟩
          · rw [h2]
            exact ih _ hread
          · refine i3 p h1 fun hin => ?_
            rcases List.mem_cons.mp hin with h' | h'
            · exact hne h'
            · exact hnl h'
      · refine ⟨fun p hp => depthL_le_iff.mp hdl p hp, ?_, ?_⟩
        · intro p hp
          exact Or.inr (List.mem_map.mpr ⟨p, hp, rfl⟩)
        · intro p hp hnin
          exact absurd (List.mem_map.mpr ⟨p, hp, rfl⟩) hnin
    | arr xs =>
      have hda : depthA xs ≤ f := by
        have : 1 + depthA xs ≤ f + 1 := hv
        omega
      show goodKeysV (.arr (xs.map (cleanValueF f))) = true
      have : goodKeysA (xs.map (cleanValueF f)) = true := by
        rw [goodKeysA_iff]
        intro v hv'
        rcases List.mem_map.mp hv' with ⟨w, hw, rfl⟩
        exact ih w (depthA_le_iff.mp hda w hw)
      simpa [goodKeysV] using this
    | undefined => rfl
    | null => rfl
    | bool b => rfl
    | num n => rfl
    | str s => rfl

theorem dupFree_iff_nodup {l : List String} : dupFree l = true ↔ l.Nodup := by
  induction l with
  | nil => simp [dupFree]
  | cons k rest ih =>
    rw [List.nodup_cons, ← ih]
    show (!rest.any (fun k' => k' = k) && dupFree rest) = true ↔ _
    rw [Bool.and_eq_true, Bool.not_eq_true', List.any_eq_false]
    constructor
    · rintro ⟨h1, h2⟩
      refine ⟨fun hk => by simpa using h1 k hk, h2⟩
    · rintro ⟨h1, h2⟩
      refine ⟨fun k' hk' => ?_, h2⟩
      simp only [decide_eq_true_eq]
      rintro rfl
      exact h1 hk'

theorem keys_setJ_hasKey {l : JObj} {k : String} (v : JValue) (h : hasKey l k = true) :
    (setJ l k v).map Prod.fst = l.map Prod.fst := by
  unfold setJ
  rw [if_pos h, List.map_map]
  refine List.map_congr_left fun p _ => ?_
  by_cases hp : p.1 = k
  · simp [hp]
  · simp [hp]

theorem keys_setJ_not {l : JObj} {k : String} (v : JValue) (h : hasKey l k = false) :
    (setJ l k v).map Prod.fst = l.map Prod.fst ++ [k] := by
  unfold setJ
  rw [if_neg (by rw [h]; exact Bool.false_ne_true)]
  simp

theorem delJ_sublist (l : JObj) (k : String) : List.Sublist (delJ l k) l := by
  induction l with
  | nil => exact List.Sublist.refl _
  | cons q rest ih =>
    obtain ⟨k', v'⟩ := q
    unfold delJ
    by_cases hk : k' = k
    · rw [if_pos hk]; exact List.Sublist.cons _ ih
    · rw [if_neg hk]; exact List.Sublist.cons₂ _ ih

theorem dupFreeKeys_setJ {l : JObj} {k : String} (v : JValue)
    (h : dupFree (l.map Prod.fst) = true) : dupFree ((setJ l k v).map Prod.fst) = true := by
  cases hk : hasKey l k
  · rw [keys_setJ_not v hk, dupFree_iff_nodup]
    rw [dupFree_iff_nodup] at h
    refine List.Nodup.append h (List.nodup_singleton k) ?_
    intro a ha hb
    rcases List.mem_singleton.mp hb with rfl
    have : hasKey l a = true := by
      rcases List.mem_map.mp ha with ⟨p, hp, rfl⟩
      exact hasKey_iff.mpr ⟨p, hp, rfl⟩
    rw [hk] at this
    cases this
  · rw [keys_setJ_hasKey v hk]
    exact h

theorem dupFreeKeys_delJ {l : JObj} (k : String)
    (h : dupFree (l.map Prod.fst) = true) : dupFree ((delJ l k).map Prod.fst) = true := by
  rw [dupFree_iff_nodup] at h ⊢
  exact List.Nodup.sublist (List.Sublist.map Prod.fst (delJ_sublist l k)) h

theorem dupFreeKeys_cleanStep (clean : JValue → JValue) {s : JObj} (key : String)
    (h : dupFree (s.map Prod.fst) = true) :
    dupFree ((cleanStepWith clean s key).map Prod.fst) = true := by
  unfold cleanStepWith
  simp only
  have he1 : dupFree ((if hasKey s key then setJ s key (clean (getJ s key)) else s).map
      Prod.fst) = true := by
    by_cases hk : hasKey s key
    · rw [if_pos hk]; exact dupFreeKeys_setJ _ h
    · rw [if_neg hk]; exact h
  by_cases hd : hasDot key
  · rw [if_pos hd]
    by_cases hs : startsDollar (dotReplace key)
    · rw [if_pos hs]
      exact dupFreeKeys_delJ _ (dupFreeKeys_setJ _ (dupFreeKeys_delJ _ (dupFreeKeys_setJ _ he1)))
    · rw [if_neg hs]
      exact dupFreeKeys_delJ _ (dupFreeKeys_setJ _ he1)
  · rw [if_neg hd]
    by_cases hs : startsDollar key
    · rw [if_pos hs]
      exact dupFreeKeys_delJ _ (dupFreeKeys_setJ _ he1)
    · rw [if_neg hs]
      exact he1

theorem nodupV_cleanValueF : ∀ (f : Nat) (v : JValue), nodupV v = true →
    nodupV (cleanValueF f v) = true := by
  intro f
  induction f with
  | zero => intro v h; exact h
  | succ f ih =>
    intro v hv
    cases v with
    | obj kvs =>
      have hv' : dupFree (kvs.map Prod.fst) = true ∧ nodupL kvs = true := by
        simpa [nodupV] using hv
      show nodupV (.obj (List.foldl (cleanStepWith (cleanValueF f)) kvs (kvs.map Prod.fst)))
          = true
      have main := foldlInv (cleanStepWith (cleanValueF f))
        (fun s _ => dupFree (s.map Prod.fst) = true ∧ ∀ p ∈ s, nodupV p.2 = true)
        ?_ (kvs.map Prod.fst) kvs ⟨hv'.1, nodupL_iff.mp hv'.2⟩
      · obtain ⟨h1, h2⟩ := main
        simp only [nodupV, Bool.and_eq_true]
        exact ⟨h1, nodupL_iff.mpr h2⟩
      · rintro s a l ⟨i1, i2⟩
        refine ⟨dupFreeKeys_cleanStep _ a i1, ?_⟩
        intro p hp
        rcases mem_cleanStep hp with ⟨_, h2⟩ | ⟨h1, _⟩
        · rw [h2]
          refine ih _ ?_
          rcases getJ_undef_or_mem s a with hg | hg
          · rw [hg]; rfl
          · exact i2 _ hg
        · exact i2 p h1
    | arr xs =>
      have hv' : ∀ w ∈ xs, nodupV w = true := nodupA_iff.mp (by simpa [nodupV] using hv)
      show nodupV (.arr (xs.map (cleanValueF f))) = true
      simp only [nodupV]
      rw [nodupA_iff]
      intro v hv2
      rcases List.mem_map.mp hv2 with ⟨w, hw, rfl⟩
      exact ih w (hv' w hw)
    | undefined => rfl
    | null => rfl
    | bool b => rfl
    | num n => rfl
    | str s => rfl

theorem goodKey_split {k : String} (h : goodKey k = true) :
    hasDot k = false ∧ startsDollar k = false := by
  unfold goodKey at h
  rw [Bool.and_eq_true, Bool.not_eq_true', Bool.not_eq_true'] at h
  exact h

theorem getJ_mem_of_hasKey {l : JObj} {k : String} (h : hasKey l k = true) :
    (k, getJ l k) ∈ l := by
  induction l with
  | nil => cases h
  | cons q rest ih =>
    obtain ⟨k', v'⟩ := q
    unfold getJ
    by_cases hk : k' = k
    · rw [if_pos hk]; subst hk; exact List.mem_cons_self _ _
    · rw [if_neg hk]
      refine List.mem_cons_of_mem _ (ih ?_)
      unfold hasKey at h
      simp only [List.any_cons, Bool.or_eq_true, decide_eq_true_eq] at h
      rcases h with h | h
      · exact absurd h hk
      · unfold hasKey
        simpa using h

theorem getJ_of_mem {pk : String} {pv : JValue} : ∀ {l : JObj},
    (l.map Prod.fst).Nodup → (pk, pv) ∈ l → getJ l pk = pv := by
  intro l
  induction l with
  | nil => intro _ hp; cases hp
  | cons q rest ih =>
    intro hnd hp
    obtain ⟨qk, qv⟩ := q
    rw [List.map_cons, List.nodup_cons] at hnd
    rcases List.mem_cons.mp hp with he | hm
    · rw [Prod.mk.injEq] at he
      obtain ⟨rfl, rfl⟩ := he
      unfold getJ
      rw [if_pos rfl]
    · have hqk : qk ≠ pk := by
        rintro rfl
        exact hnd.1 (List.mem_map.mpr ⟨(qk, pv), hm, rfl⟩)
      unfold getJ
      rw [if_neg hqk]
      exact ih hnd.2 hm

theorem setJ_getJ_self {l : JObj} {k : String} (hd : dupFree (l.map Prod.fst) = true)
    (hk : hasKey l k = true) : setJ l k (getJ l k) = l := by
  unfold setJ
  rw [if_pos hk]
  have hnd : (l.map Prod.fst).Nodup := dupFree_iff_nodup.mp hd
  conv_rhs => rw [← List.map_id l]
  refine List.map_congr_left fun p hp => ?_
  by_cases hpk : p.1 = k
  · rw [if_pos hpk]
    obtain ⟨pk, pv⟩ := p
    simp only at hpk
    subst hpk
    rw [getJ_of_mem hnd hp]
    rfl
  · rw [if_neg hpk]
    rfl

theorem cleanValueF_id : ∀ (f : Nat) (v : JValue), goodKeysV v = true → nodupV v = true →
    cleanValueF f v = v := by
  intro f
  induction f with
  | zero => intro v _ _; rfl
  | succ f ih =>
    intro v hg hn
    cases v with
    | obj kvs =>
      have hg' : ∀ p ∈ kvs, goodKey p.1 = true ∧ goodKeysV p.2 = true :=
        goodKeysL_iff.mp (by simpa [goodKeysV] using hg)
      have hn' : dupFree (kvs.map Prod.fst) = true ∧ nodupL kvs = true := by
        simpa [nodupV] using hn
      show JValue.obj (List.foldl (cleanStepWith (cleanValueF f)) kvs (kvs.map Prod.fst))
          = JValue.obj kvs
      refine congrArg JValue.obj (foldl_fixed _ _ _ fun a ha => ?_)
      rcases List.mem_map.mp ha with ⟨p, hp, rfl⟩
      have hk : hasKey kvs p.1 = true := hasKey_iff.mpr ⟨p, hp, rfl⟩
      have hmem : (p.1, getJ kvs p.1) ∈ kvs := getJ_mem_of_hasKey hk
      have hclean : cleanValueF f (getJ kvs p.1) = getJ kvs p.1 :=
        ih _ (hg' _ hmem).2 (nodupL_iff.mp hn'.2 _ hmem)
      have hkeygood := goodKey_split (hg' p hp).1
      unfold cleanStepWith
      simp only
      rw [hclean, if_pos hk, setJ_getJ_self hn'.1 hk,
        if_neg (by rw [hkeygood.1]; exact Bool.false_ne_true),
        if_neg (by rw [hkeygood.2]; exact Bool.false_ne_true)]
    | arr xs =>
      have hg' : ∀ w ∈ xs, goodKeysV w = true := goodKeysA_iff.mp (by simpa [goodKeysV] using hg)
      have hn' : ∀ w ∈ xs, nodupV w = true := nodupA_iff.mp (by simpa [nodupV] using hn)
      show JValue.arr (xs.map (cleanValueF f)) = JValue.arr xs
      refine congrArg JValue.arr ?_
      conv_rhs => rw [← List.map_id xs]
      exact List.map_congr_left fun w hw => ih w (hg' w hw) (hn' w hw)
    | undefined => rfl
    | null => rfl
    | bool b => rfl
    | num n => rfl
    | str s => rfl

theorem hasKey_iff_mem_keys {l : JObj} {k : String} :
    hasKey l k = true ↔ k ∈ l.map Prod.fst := by
  rw [hasKey_iff]
  constructor
  · rintro ⟨p, hp, rfl⟩
    exact List.mem_map.mpr ⟨p, hp, rfl⟩
  · intro h
    rcases List.mem_map.mp h with ⟨p, hp, rfl⟩
    exact ⟨p, hp, rfl⟩

theorem delJ_eq_filter (l : JObj) (k : String) :
    delJ l k = l.filter (fun p => !decide (p.1 = k)) := by
  induction l with
  | nil => rfl
  | cons q rest ih =>
    obtain ⟨k', v'⟩ := q
    unfold delJ
    by_cases hk : k' = k
    · rw [if_pos hk, ih, List.filter_cons]
      simp [hk]
    · rw [if_neg hk, ih, List.filter_cons]
      simp [hk]

theorem delJ_append (a b : JObj) (k : String) :
    delJ (a ++ b) k = delJ a k ++ delJ b k := by
  rw [delJ_eq_filter, delJ_eq_filter, delJ_eq_filter, List.filter_append]

theorem delJ_no_key {l : JObj} {k : String} (h : hasKey l k = false) : delJ l k = l := by
  rw [delJ_eq_filter]
  refine List.filter_eq_self.mpr fun p hp => ?_
  simp only [Bool.not_eq_true', decide_eq_false_iff_not]
  rintro rfl
  rw [hasKey_iff.mpr ⟨p, hp, rfl⟩] at h
  cases h

theorem delJ_single_same (k : String) (v : JValue) : delJ [(k, v)] k = [] := by
  unfold delJ
  rw [if_pos rfl]
  rfl

theorem delJ_map_replace (k : String) (v : JValue) : ∀ l : JObj,
    delJ (l.map (fun p => if p.1 = k then (k, v) else p)) k = delJ l k := by
  intro l
  induction l with
  | nil => rfl
  | cons q rest ih =>
    obtain ⟨qk, qv⟩ := q
    rw [List.map_cons]
    by_cases hq : qk = k
    · rw [if_pos hq]
      unfold delJ
      rw [if_pos rfl, if_pos hq]
      exact ih
    · rw [if_neg hq]
      unfold delJ
      rw [if_neg hq, if_neg hq, ih]

theorem delJ_setJ_same (l : JObj) (k : String) (v : JValue) :
    delJ (setJ l k v) k = delJ l k := by
  unfold setJ
  by_cases hk : hasKey l k
  · rw [if_pos hk]
    exact delJ_map_replace k v l
  · rw [if_neg hk]
    rw [delJ_append, delJ_single_same, List.append_nil]

theorem setJ_fresh {l : JObj} {k : String} (v : JValue) (h : hasKey l k = false) :
    setJ l k v = l ++ [(k, v)] := by
  unfold setJ
  rw [if_neg (by rw [h]; exact Bool.false_ne_true)]

theorem map_replace_perm (k : String) (v : JValue) : ∀ l : JObj,
    (l.map Prod.fst).Nodup → hasKey l k = true →
    (l.map (fun p => if p.1 = k then (k, v) else p)).Perm ((k, v) :: delJ l k) := by
  intro l
  induction l with
  | nil => intro _ hk; cases hk
  | cons q rest ih =>
    intro hnd hk
    obtain ⟨qk, qv⟩ := q
    rw [List.map_cons, List.nodup_cons] at hnd
    rw [List.map_cons]
    by_cases hq : qk = k
    · rw [if_pos hq]
      unfold delJ
      rw [if_pos hq]
      have hrest : hasKey rest k = false := by
        rw [Bool.eq_false_iff]
        intro hc
        rw [← hq] at hc
        exact hnd.1 (hasKey_iff_mem_keys.mp hc)
      rw [delJ_no_key hrest]
      have hmap : (rest.map fun p => if p.1 = k then (k, v) else p) = rest := by
        conv_rhs => rw [← List.map_id rest]
        refine List.map_congr_left fun p hp => ?_
        rw [if_neg fun hpk => by
          rw [Bool.eq_false_iff] at hrest
          exact hrest (hasKey_iff.mpr ⟨p, hp, hpk⟩)]
        rfl
      rw [hmap]
    · rw [if_neg hq]
      unfold delJ
      rw [if_neg hq]
      have hk' : hasKey rest k = true := by
        unfold hasKey at hk
        simp only [List.any_cons, Bool.or_eq_true, decide_eq_true_eq] at hk
        rcases hk with h | h
        · exact absurd h hq
        · unfold hasKey; simpa using h
      exact ((ih hnd.2 hk').cons (qk, qv)).trans (List.Perm.swap _ _ _)

theorem setJ_replace_perm {l : JObj} {k : String} (v : JValue)
    (hnd : (l.map Prod.fst).Nodup) (hk : hasKey l k = true) :
    (setJ l k v).Perm ((k, v) :: delJ l k) := by
  unfold setJ
  rw [if_pos hk]
  exact map_replace_perm k v l hnd hk

theorem perm_cons_delJ {l : JObj} {k : String} {w : JValue}
    (hnd : (l.map Prod.fst).Nodup) (hmem : (k, w) ∈ l) :
    l.Perm ((k, w) :: delJ l k) := by
  induction l with
  | nil => cases hmem
  | cons q rest ih =>
    obtain ⟨qk, qv⟩ := q
    rw [List.map_cons, List.nodup_cons] at hnd
    rcases List.mem_cons.mp hmem with he | hm
    · rw [Prod.mk.injEq] at he
      obtain ⟨rfl, rfl⟩ := he
      unfold delJ
      rw [if_pos rfl]
      have hrest : hasKey rest k = false := by
        rw [Bool.eq_false_iff]
        intro hc
        exact hnd.1 (hasKey_iff_mem_keys.mp hc)
      rw [delJ_no_key hrest]
    · have hq : qk ≠ k := by
        rintro rfl
        exact hnd.1 (List.mem_map.mpr ⟨(qk, w), hm, rfl⟩)
      unfold delJ
      rw [if_neg hq]
      exact ((ih hnd.2 hm).cons (qk, qv)).trans (List.Perm.swap _ _ _)

theorem delJ_map {h : String × JValue → String × JValue} {k : String} {l : JObj}
    (hiff : ∀ p ∈ l, ((h p).1 = k ↔ p.1 = k)) :
    delJ (l.map h) k = (delJ l k).map h := by
  rw [delJ_eq_filter, delJ_eq_filter, List.filter_map]
  congr 1
  refine List.filter_congr fun p hp => ?_
  have hpi := hiff p hp
  simp only [Function.comp]
  by_cases hc : p.1 = k
  · rw [decide_eq_true (hpi.mpr hc), decide_eq_true hc]
  · rw [decide_eq_false (fun h2 => hc (hpi.mp h2)), decide_eq_false hc]

theorem delJ_single_keep {k' k : String} (v : JValue) (h : k' ≠ k) :
    delJ [(k', v)] k = [(k', v)] := by
  unfold delJ
  rw [if_neg h]
  rfl

theorem hasKey_delJ_false {l : JObj} {k t : String} (h : hasKey l t = false) :
    hasKey (delJ l k) t = false := by
  rw [Bool.eq_false_iff] at h ⊢
  intro hc
  obtain ⟨p, hp, hpk⟩ := hasKey_iff.mp hc
  exact h (hasKey_iff.mpr ⟨p, (mem_delJ hp).1, hpk⟩)

theorem hasKey_append (a b : JObj) (t : String) :
    hasKey (a ++ b) t = (hasKey a t || hasKey b t) := by
  unfold hasKey
  rw [List.any_append]

theorem hasKey_eq_of_keys {l l' : JObj} (h : l.map Prod.fst = l'.map Prod.fst)
    (t : String) : hasKey l t = hasKey l' t := by
  rw [Bool.eq_iff_iff, hasKey_iff_mem_keys, hasKey_iff_mem_keys, h]

theorem stepFinalKey_good {k : String} (h : goodKey k = true) : stepFinalKey k = k := by
  obtain ⟨h1, h2⟩ := goodKey_split h
  unfold stepFinalKey
  rw [if_neg (by rw [h1]; exact Bool.false_ne_true),
    if_neg (by rw [h2]; exact Bool.false_ne_true)]

theorem hasDot_stepFinalKey (k : String) : hasDot (stepFinalKey k) = false :=
  (goodKey_split (goodKey_stepFinalKey k)).1

theorem startsDollar_stepFinalKey (k : String) : startsDollar (stepFinalKey k) = false :=
  (goodKey_split (goodKey_stepFinalKey k)).2

theorem ne_of_hasDot {a b : String} (ha : hasDot a = true) (hb : hasDot b = false) :
    a ≠ b := by
  rintro rfl
  rw [ha] at hb
  cases hb

theorem ne_of_startsDollar {a b : String} (ha : startsDollar a = true)
    (hb : startsDollar b = false) : a ≠ b := by
  rintro rfl
  rw [ha] at hb
  cases hb

theorem cleanStep_perm (clean : JValue → JValue) {s : JObj} {key : String}
    (hnd : (s.map Prod.fst).Nodup)
    (hk : hasKey s key = true)
    (hfresh1 : stepFinalKey key = key ∨ hasKey s (stepFinalKey key) = false)
    (hfresh2 : hasDot key = true → startsDollar (dotReplace key) = true →
      hasKey s (dotReplace key) = false) :
    (cleanStepWith clean s key).Perm
      ((stepFinalKey key, clean (getJ s key)) :: delJ s key) := by
  unfold cleanStepWith
  simp only
  rw [if_pos hk]
  by_cases hd : hasDot key
  · rw [if_pos hd]
    have hnkey : dotReplace key ≠ key := (ne_of_hasDot hd (hasDot_dotReplace key)).symm
    by_cases hs : startsDollar (dotReplace key)
    · rw [if_pos hs]
      have hfk : stepFinalKey key = dollarRename (dotReplace key) := by
        unfold stepFinalKey
        rw [if_pos hd, if_pos hs]
      have himgkey : stepFinalKey key ≠ key :=
        fun hc => (ne_of_hasDot hd (hasDot_stepFinalKey key)) (hc.symm)
      have hnk : hasKey s (dotReplace key) = false := hfresh2 hd hs
      have himg : hasKey s (stepFinalKey key) = false := by
        rcases hfresh1 with hc | hc
        · exact absurd hc himgkey
        · exact hc
      have he1nk : hasKey (setJ s key (clean (getJ s key))) (dotReplace key) = false := by
        rw [hasKey_eq_of_keys (keys_setJ_hasKey _ hk) _]
        exact hnk
      rw [setJ_fresh _ he1nk, delJ_append, delJ_setJ_same,
        delJ_single_keep _ hnkey]
      have he2img : hasKey (delJ s key ++ [(dotReplace key, clean (getJ s key))])
          (dollarRename (dotReplace key)) = false := by
        rw [hasKey_append, Bool.or_eq_false_iff]
        constructor
        · refine hasKey_delJ_false ?_
          rw [← hfk]
          exact himg
        · unfold hasKey
          simp only [List.any_cons, List.any_nil, Bool.or_false, decide_eq_false_iff_not]
          exact ne_of_startsDollar hs (startsDollar_dollarRename (dotReplace key))
      rw [setJ_fresh _ he2img, delJ_append, delJ_append]
      have h1 : delJ (delJ s key) (dotReplace key) = delJ s key :=
        delJ_no_key (hasKey_delJ_false hnk)
      rw [h1, delJ_single_same,
        delJ_single_keep _ (ne_of_startsDollar hs (startsDollar_dollarRename (dotReplace key))).symm]
      rw [hfk, List.append_nil]
      exact List.perm_append_singleton _ _
    · rw [if_neg hs]
      have hfk : stepFinalKey key = dotReplace key := by
        unfold stepFinalKey
        rw [if_pos hd, if_neg hs]
      have hnk : hasKey s (dotReplace key) = false := by
        rcases hfresh1 with hc | hc
        · rw [hfk] at hc
          exact absurd hc hnkey
        · rw [hfk] at hc
          exact hc
      have he1nk : hasKey (setJ s key (clean (getJ s key))) (dotReplace key) = false := by
        rw [hasKey_eq_of_keys (keys_setJ_hasKey _ hk) _]
        exact hnk
      rw [setJ_fresh _ he1nk, delJ_append, delJ_setJ_same, delJ_single_keep _ hnkey, hfk]
      exact List.perm_append_singleton _ _
  · rw [if_neg hd]
    by_cases hs : startsDollar key
    · rw [if_pos hs]
      have hfk : stepFinalKey key = dollarRename key := by
        unfold stepFinalKey
        rw [if_neg hd, if_pos hs]
      have himgkey : dollarRename key ≠ key :=
        (ne_of_startsDollar hs (startsDollar_dollarRename key)).symm
      have himg : hasKey s (dollarRename key) = false := by
        rcases hfresh1 with hc | hc
        · rw [hfk] at hc
          exact absurd hc himgkey
        · rw [hfk] at hc
          exact hc
      have he1img : hasKey (setJ s key (clean (getJ s key))) (dollarRename key) = false := by
        rw [hasKey_eq_of_keys (keys_setJ_hasKey _ hk) _]
        exact himg
      rw [setJ_fresh _ he1img, delJ_append, delJ_setJ_same, delJ_single_keep _ himgkey, hfk]
      exact List.perm_append_singleton _ _
    · rw [if_neg hs]
      have hfk : stepFinalKey key = key :=
        stepFinalKey_good (goodKey_of (Bool.eq_false_iff.mpr hd) (Bool.eq_false_iff.mpr hs))
      rw [hfk]
      exact setJ_replace_perm _ hnd hk

theorem foldlInv2 {α β : Type _} (step : β → α → β) (P : β → List α → List α → Prop)
    (hstep : ∀ s pre a l, P s pre (a :: l) → P (step s a) (pre ++ [a]) l) :
    ∀ rem pre s, P s pre rem → P (List.foldl step s rem) (pre ++ rem) [] := by
  intro rem
  induction rem with
  | nil => intro pre s h; simpa using h
  | cons a rest ih =>
    intro pre s h
    have h2 := ih (pre ++ [a]) (step s a) (hstep s pre a rest h)
    simpa using h2

theorem delJ_perm {s t : JObj} (k : String) (h : s.Perm t) :
    (delJ s k).Perm (delJ t k) := by
  rw [delJ_eq_filter, delJ_eq_filter]
  exact h.filter _

theorem cleanPairsF_perm (f : Nat) (kvs : JObj)
    (hnd : (kvs.map Prod.fst).Nodup)
    (hinj : ∀ k1 ∈ kvs.map Prod.fst, ∀ k2 ∈ kvs.map Prod.fst,
      k1 ≠ k2 → stepFinalKey k1 ≠ stepFinalKey k2) :
    (cleanPairsF f kvs).Perm
      (kvs.map (fun p => (stepFinalKey p.1, cleanValueF f p.2))) := by
  have main := foldlInv2 (cleanStepWith (cleanValueF f))
    (fun s pre rem => kvs.map Prod.fst = pre ++ rem →
      s.Perm (kvs.map (fun p =>
        if p.1 ∈ rem then p else (stepFinalKey p.1, cleanValueF f p.2)))
      ∧ (s.map Prod.fst).Nodup)
    ?_ (kvs.map Prod.fst) [] kvs ?_
  · obtain ⟨hperm, _⟩ := main (by simp)
    refine hperm.trans (List.Perm.of_eq (List.map_congr_left fun p hp => ?_))
    rw [if_neg (List.not_mem_nil _)]
  · intro s pre a l hP hkeys
    have hkeys' : kvs.map Prod.fst = pre ++ a :: l := by
      rw [hkeys, List.append_assoc]
      rfl
    obtain ⟨hperm, hnodups⟩ := hP hkeys'
    have hndk : (pre ++ a :: l).Nodup := hkeys' ▸ hnd
    have hal : a ∉ l := by
      have h2 := (List.nodup_append.mp hndk).2.1
      rw [List.nodup_cons] at h2
      exact h2.1
    have hain : a ∈ kvs.map Prod.fst := by
      rw [hkeys']
      exact List.mem_append_right _ (List.mem_cons_self _ _)
    obtain ⟨p0, hp0, hp0a⟩ := List.mem_map.mp hain
    obtain ⟨a', w0⟩ := p0
    simp only at hp0a
    subst hp0a
    have hp0s : (a', w0) ∈ s := by
      refine hperm.mem_iff.mpr (List.mem_map.mpr ⟨(a', w0), hp0, ?_⟩)
      rw [if_pos (List.mem_cons_self _ _)]
    have hk : hasKey s a' = true := hasKey_iff.mpr ⟨(a', w0), hp0s, rfl⟩
    have hgj : getJ s a' = w0 := getJ_of_mem hnodups hp0s
    have hfreshgen : ∀ t, t ≠ a' → stepFinalKey t = stepFinalKey a' →
        (goodKey t = true ∨ startsDollar t = true) → hasKey s t = false := by
      intro t hta hsfk hshape
      rw [Bool.eq_false_iff]
      intro hc
      obtain ⟨q, hq, hqt⟩ := hasKey_iff.mp hc
      obtain ⟨r, hr, hrq⟩ := List.mem_map.mp (hperm.mem_iff.mp hq)
      have hrin : r.1 ∈ kvs.map Prod.fst := List.mem_map.mpr ⟨r, hr, rfl⟩
      by_cases hrl : r.1 ∈ a' :: l
      · rw [if_pos hrl] at hrq
        subst hrq
        have hr1t : r.1 = t := hqt
        have hrna : r.1 ≠ a' := by
          rw [hr1t]
          exact hta
        refine hinj r.1 hrin a' hain hrna ?_
        rw [hr1t, hsfk]
      · rw [if_neg hrl] at hrq
        have hrt : stepFinalKey r.1 = t := by
          rw [← hrq] at hqt
          exact hqt
        have hrna : r.1 ≠ a' := fun he => hrl (he ▸ List.mem_cons_self a' l)
        rcases hshape with hgood | hsd2
        · have ht2 : t = stepFinalKey a' := by
            rw [← stepFinalKey_good hgood]
            exact hsfk
          refine hinj r.1 hrin a' hain hrna ?_
          rw [hrt, ht2]
        · have hcon := startsDollar_stepFinalKey r.1
          rw [hrt, hsd2] at hcon
          cases hcon
    have hfresh1 : stepFinalKey a' = a' ∨ hasKey s (stepFinalKey a') = false := by
      by_cases he : stepFinalKey a' = a'
      · exact Or.inl he
      · refine Or.inr (hfreshgen _ he ?_ (Or.inl (goodKey_stepFinalKey a')))
        exact stepFinalKey_good (goodKey_stepFinalKey a')
    have hfresh2 : hasDot a' = true → startsDollar (dotReplace a') = true →
        hasKey s (dotReplace a') = false := by
      intro hd hsd
      refine hfreshgen _ (ne_of_hasDot hd (hasDot_dotReplace a')).symm ?_ (Or.inr hsd)
      unfold stepFinalKey
      rw [if_neg (by rw [hasDot_dotReplace]; exact Bool.false_ne_true), if_pos hsd,
        if_pos hd]
    have hstep := cleanStep_perm (cleanValueF f) hnodups hk hfresh1 hfresh2
    rw [hgj] at hstep
    constructor
    · have hiff : ∀ p ∈ kvs, (((fun p : String × JValue =>
          if p.1 ∈ a' :: l then p else (stepFinalKey p.1, cleanValueF f p.2)) p).1 = a'
          ↔ p.1 = a') := by
        intro p hp
        show (if p.1 ∈ a' :: l then p else (stepFinalKey p.1, cleanValueF f p.2)).1 = a'
          ↔ p.1 = a'
        by_cases hpl : p.1 ∈ a' :: l
        · rw [if_pos hpl]
        · rw [if_neg hpl]
          simp only
          constructor
          · intro hsfka
            exfalso
            have hpna : p.1 ≠ a' := fun he => hpl (he ▸ List.mem_cons_self a' l)
            have hga : goodKey a' = true := hsfka ▸ goodKey_stepFinalKey p.1
            refine hinj p.1 (List.mem_map.mpr ⟨p, hp, rfl⟩) a' hain hpna ?_
            rw [hsfka, stepFinalKey_good hga]
          · intro hpa
            exact absurd (hpa ▸ List.mem_cons_self a' l) hpl
      have hdel2 : delJ (kvs.map (fun p =>
          if p.1 ∈ a' :: l then p else (stepFinalKey p.1, cleanValueF f p.2))) a'
          = (delJ kvs a').map (fun p =>
          if p.1 ∈ a' :: l then p else (stepFinalKey p.1, cleanValueF f p.2)) :=
        delJ_map hiff
      have hcons : kvs.Perm ((a', w0) :: delJ kvs a') := perm_cons_delJ hnd hp0
      have hmapagree : (delJ kvs a').map (fun p =>
          if p.1 ∈ a' :: l then p else (stepFinalKey p.1, cleanValueF f p.2))
          = (delJ kvs a').map (fun p =>
          if p.1 ∈ l then p else (stepFinalKey p.1, cleanValueF f p.2)) := by
        refine List.map_congr_left fun q hq => ?_
        have hqa := (mem_delJ hq).2
        by_cases hql : q.1 ∈ l
        · rw [if_pos hql, if_pos (List.mem_cons_of_mem _ hql)]
        · rw [if_neg hql, if_neg (fun hc => by
            rcases List.mem_cons.mp hc with h1 | h1
            · exact hqa h1
            · exact hql h1)]
      refine hstep.trans ?_
      have hchain : ((stepFinalKey a', cleanValueF f w0) :: delJ s a').Perm
          ((stepFinalKey a', cleanValueF f w0) ::
            (delJ kvs a').map (fun p =>
              if p.1 ∈ l then p else (stepFinalKey p.1, cleanValueF f p.2))) := by
        refine List.Perm.cons _ ?_
        refine (delJ_perm a' hperm).trans ?_
        rw [hdel2, hmapagree]
      refine hchain.trans ?_
      have hfinal := (hcons.map (fun p : String × JValue =>
        if p.1 ∈ l then p else (stepFinalKey p.1, cleanValueF f p.2))).symm
      rw [List.map_cons] at hfinal
      rw [if_neg hal] at hfinal
      exact hfinal
    · have hdf : dupFree (s.map Prod.fst) = true := dupFree_iff_nodup.mpr hnodups
      exact dupFree_iff_nodup.mp (dupFreeKeys_cleanStep (cleanValueF f) a' hdf)
  · intro hkeys
    constructor
    · refine List.Perm.of_eq ?_
      conv_lhs => rw [← List.map_id kvs]
      refine List.map_congr_left fun p hp => ?_
      rw [if_pos (List.mem_map.mpr ⟨p, hp, rfl⟩)]
      rfl
    · exact hnd

theorem depthV_obj (e : JObj) : depthV (.obj e) = 1 + depthL e := rfl

theorem cleanValueF_obj (f : Nat) (kvs : JObj) :
    cleanValueF (f + 1) (.obj kvs) = .obj (cleanPairsF f kvs) := rfl

/-- **C5.** For every nested input record, after sanitization (`cleanEntry`)
no key at any nesting depth contains a literal `.` character or begins with
the `$` sigil (`goodKeysL` checks every key of every nested object and of
every object inside nested arrays). -/
theorem cleanEntry_goodKeys (e : JObj) : goodKeysL (cleanEntry e) = true := by
  have h := goodKeysV_cleanValueF (depthL e + 1) (.obj e)
    (by rw [depthV_obj]; omega)
  rw [cleanValueF_obj] at h
  exact h

/-- **C6.** Sanitization (`cleanEntry`) is idempotent: on any input record
whose keys are pairwise distinct at every nesting depth (true of every
JavaScript object graph), applying it twice yields the same record as
applying it once. -/
theorem cleanEntry_idempotent (e : JObj)
    (h1 : dupFree (e.map Prod.fst) = true) (h2 : nodupL e = true) :
    cleanEntry (cleanEntry e) = cleanEntry e := by
  have hin : nodupV (.obj e) = true := by
    show (dupFree (e.map Prod.fst) && nodupL e) = true
    rw [h1, h2]
    rfl
  have hout : nodupV (.obj (cleanEntry e)) = true := by
    have h := nodupV_cleanValueF (depthL e + 1) (.obj e) hin
    rw [cleanValueF_obj] at h
    exact h
  have hgood : goodKeysV (.obj (cleanEntry e)) = true := by
    have h := goodKeysV_cleanValueF (depthL e + 1) (.obj e) (by rw [depthV_obj]; omega)
    rw [cleanValueF_obj] at h
    exact h
  have hid := cleanValueF_id (depthL (cleanEntry e) + 1) (.obj (cleanEntry e)) hgood hout
  rw [cleanValueF_obj] at hid
  exact JValue.obj.inj hid

/-- Witness for C6 at a concrete nested record with a sigil key and a
dotted key. -/
theorem cleanEntry_idempotent_witness :
    cleanEntry (cleanEntry [("$a", JValue.num 1),
        ("b.c", JValue.obj [("x.y", JValue.num 2)])])
      = cleanEntry [("$a", JValue.num 1),
        ("b.c", JValue.obj [("x.y", JValue.num 2)])] :=
  cleanEntry_idempotent _ (by decide) (by decide)

/-- **C4, counterexample.** Sanitization can lose a value: in the record
`{"a.b": 1, "a_b": 2}` (keys pairwise distinct, a legal JavaScript object)
the rename of `"a.b"` to `"a_b"` overwrites the existing `"a_b"` entry, so
the value `2` that is present in the input is absent from the output. -/
theorem cleanEntry_loses_value :
    cleanEntry [("a.b", JValue.num 1), ("a_b", JValue.num 2)]
      = [("a_b", JValue.num 1)] ∧
    JValue.num 2 ∈ ([("a.b", JValue.num 1), ("a_b", JValue.num 2)] : JObj).map Prod.snd ∧
    JValue.num 2 ∉ (cleanEntry [("a.b", JValue.num 1), ("a_b", JValue.num 2)]).map Prod.snd := by
  refine ⟨rfl, ?_, ?_⟩
  · exact List.mem_cons_of_mem _ (List.mem_cons_self _ _)
  · intro h
    have he : (cleanEntry [("a.b", JValue.num 1), ("a_b", JValue.num 2)]).map Prod.snd
        = [JValue.num 1] := rfl
    rw [he] at h
    rcases List.mem_singleton.mp h with h2
    exact absurd (JValue.num.inj h2) (by decide)

/-- **C4 (amended).** Sanitization neither loses nor duplicates values
provided no two distinct keys of the record sanitize to the same name
(the counterexample shows the unamended claim fails when they collide):
the output is a permutation of the input pairs, each key replaced by its
sanitized name (`stepFinalKey`) and each value recursively sanitized.
The statement quantifies over all records, hence applies at every
nesting depth of a nested record. -/
theorem cleanEntry_perm_of_inj (e : JObj)
    (hnd : (e.map Prod.fst).Nodup)
    (hinj : ∀ k1 ∈ e.map Prod.fst, ∀ k2 ∈ e.map Prod.fst,
      k1 ≠ k2 → stepFinalKey k1 ≠ stepFinalKey k2) :
    (cleanEntry e).Perm
      (e.map (fun p => (stepFinalKey p.1, cleanValueF (depthL e) p.2))) :=
  cleanPairsF_perm (depthL e) e hnd hinj

/-- Witness for the amended C4 at a concrete record with one dotted key,
one sigil key and one safe key, pairwise non-colliding. -/
theorem cleanEntry_perm_of_inj_witness :
    (cleanEntry [("a.b", JValue.num 1), ("$c", JValue.num 2), ("d", JValue.num 3)]).Perm
      (([("a.b", JValue.num 1), ("$c", JValue.num 2), ("d", JValue.num 3)] : JObj).map
        (fun p => (stepFinalKey p.1,
          cleanValueF (depthL [("a.b", JValue.num 1), ("$c", JValue.num 2),
            ("d", JValue.num 3)]) p.2))) :=
  cleanEntry_perm_of_inj _ (by decide) (by decide)

/-- `_getAllNames` (src/indexer.js:15-38).  The network is abstracted as
`pages : Nat → List String` giving the parsed body of
`/v1/names?page=i`; the fuel parameter bounds the recursion (the source
recurses until an empty page); `none` means the fuel ran out before the
walk finished.  The guard mirrors the JavaScript truthiness test
`pagesToFetch && pagesToFetch > 0 && page >= pagesToFetch` (a `Nat` is
truthy exactly when it is nonzero). -/
def _getAllNames (pages : Nat → List String) :
    Nat → Nat → List String → Nat → Option (List String)
  | 0, _, _, _ => none
  | fuel + 1, page, priorNames, pagesToFetch =>
    if pagesToFetch ≠ 0 ∧ pagesToFetch > 0 ∧ page ≥ pagesToFetch then some priorNames
    else if (pages page).length > 0 then
      _getAllNames pages fuel (page + 1) (priorNames ++ pages page) pagesToFetch
    else some priorNames

/-- `_getAllSubdomains` (src/indexer.js:40-63): identical control flow
against the `/v1/subdomains` endpoint. -/
def _getAllSubdomains (pages : Nat → List String) :
    Nat → Nat → List String → Nat → Option (List String)
  | 0, _, _, _ => none
  | fuel + 1, page, priorNames, pagesToFetch =>
    if pagesToFetch ≠ 0 ∧ pagesToFetch > 0 ∧ page ≥ pagesToFetch then some priorNames
    else if (pages page).length > 0 then
      _getAllSubdomains pages fuel (page + 1) (priorNames ++ pages page) pagesToFetch
    else some priorNames

/-- `getAllNames` (src/indexer.js:65-67) -/
def getAllNames (pages : Nat → List String) (fuel pagesToFetch : Nat) :
    Option (List String) :=
  _getAllNames pages fuel 0 [] pagesToFetch

/-- `getAllSubdomains` (src/indexer.js:69-71) -/
def getAllSubdomains (pages : Nat → List String) (fuel pagesToFetch : Nat) :
    Option (List String) :=
  _getAllSubdomains pages fuel 0 [] pagesToFetch

theorem getAllSubdomains_eq_getAllNames (pages : Nat → List String) :
    ∀ (fuel page : Nat) (prior : List String) (cap : Nat),
    _getAllSubdomains pages fuel page prior cap = _getAllNames pages fuel page prior cap := by
  intro fuel
  induction fuel with
  | zero => intro _ _ _; rfl
  | succ f ih =>
    intro page prior cap
    unfold _getAllSubdomains _getAllNames
    by_cases h1 : cap ≠ 0 ∧ cap > 0 ∧ page ≥ cap
    · rw [if_pos h1, if_pos h1]
    · rw [if_neg h1, if_neg h1]
      by_cases h2 : (pages page).length > 0
      · rw [if_pos h2, if_pos h2, ih]
      · rw [if_neg h2, if_neg h2]

theorem _getAllNames_capped {pages : Nat → List String} {N : Nat} (hN : 0 < N) :
    ∀ (fuel page : Nat) (prior res : List String), page ≤ N →
    _getAllNames pages fuel page prior N = some res →
    ∃ k, page ≤ k ∧ k ≤ N ∧
      res = prior ++ (List.range' page (k - page)).flatMap pages := by
  intro fuel
  induction fuel with
  | zero => intro page prior res _ h; cases h
  | succ f ih =>
    intro page prior res hpage h
    unfold _getAllNames at h
    by_cases h1 : N ≠ 0 ∧ N > 0 ∧ page ≥ N
    · rw [if_pos h1] at h
      obtain rfl : prior = res := Option.some.inj h
      refine ⟨page, le_refl _, hpage, ?_⟩
      rw [Nat.sub_self]
      simp [List.range']
    · rw [if_neg h1] at h
      have hlt : page < N := by
        rcases Nat.lt_or_ge page N with hc | hc
        · exact hc
        · exact absurd ⟨Nat.pos_iff_ne_zero.mp hN, hN, hc⟩ h1
      by_cases h2 : (pages page).length > 0
      · rw [if_pos h2] at h
        obtain ⟨k, hk1, hk2, hk3⟩ := ih (page + 1) (prior ++ pages page) res hlt h
        refine ⟨k, le_trans (Nat.le_succ _) hk1, hk2, ?_⟩
        rw [hk3, List.append_assoc]
        congr 1
        have hkp : k - page = (k - (page + 1)) + 1 := by omega
        rw [hkp, List.range'_succ, List.flatMap_cons]
      · rw [if_neg h2] at h
        obtain rfl : prior = res := Option.some.inj h
        refine ⟨page, le_refl _, hpage, ?_⟩
        rw [Nat.sub_self]
        simp [List.range']

/-- a page source whose page 0 holds one name and whose later pages are
empty -/
def pagesEx : Nat → List String := fun i => if i = 0 then ["x"] else []

/-- **C1, counterexample.**  With `pageCap = 0` the guard
`pagesToFetch && pagesToFetch > 0 && …` is falsy, so the cap is disabled
rather than enumeration returning the empty sequence: against a source
whose page 0 is nonempty, `getAllNames` with cap 0 returns that page's
names, not `[]`. -/
theorem getAllNames_cap_zero_not_empty :
    getAllNames pagesEx 3 0 = some ["x"] ∧ some ["x"] ≠ some ([] : List String) := by
  exact ⟨rfl, by simp⟩

/-- **C1 (amended).**  For every page cap `N > 0`, enumeration
(`getAllNames` / `getAllSubdomains`) returns names only from pages
`0..N-1` (it returns the concatenation of pages `0..k-1` for some
`k ≤ N`); for `pageCap = 0` the cap is disabled and enumeration keeps
fetching past any nonempty page, stopping only at an empty page (so it
returns the empty sequence only if page 0 is empty, not in general). -/
theorem getAllNames_pageCap :
    (∀ (pages : Nat → List String) (N fuel : Nat) (res : List String), 0 < N →
      getAllNames pages fuel N = some res →
      ∃ k, k ≤ N ∧ res = (List.range k).flatMap pages) ∧
    (∀ (pages : Nat → List String) (N fuel : Nat) (res : List String), 0 < N →
      getAllSubdomains pages fuel N = some res →
      ∃ k, k ≤ N ∧ res = (List.range k).flatMap pages) ∧
    (∀ (pages : Nat → List String) (fuel page : Nat) (prior : List String),
      (pages page).length > 0 →
      _getAllNames pages (fuel + 1) page prior 0
        = _getAllNames pages fuel (page + 1) (prior ++ pages page) 0) ∧
    (∀ (pages : Nat → List String) (fuel page : Nat) (prior : List String),
      (pages page).length > 0 →
      _getAllSubdomains pages (fuel + 1) page prior 0
        = _getAllSubdomains pages fuel (page + 1) (prior ++ pages page) 0) := by
  have huncap : ∀ (pages : Nat → List String) (fuel page : Nat) (prior : List String),
      (pages page).length > 0 →
      _getAllNames pages (fuel + 1) page prior 0
        = _getAllNames pages fuel (page + 1) (prior ++ pages page) 0 := by
    intro pages fuel page prior hlen
    show (if (0 : Nat) ≠ 0 ∧ (0 : Nat) > 0 ∧ page ≥ 0 then some prior
      else if (pages page).length > 0 then
        _getAllNames pages fuel (page + 1) (prior ++ pages page) 0
      else some prior) = _
    rw [if_neg (by omega), if_pos hlen]
  have hcap : ∀ (pages : Nat → List String) (N fuel : Nat) (res : List String), 0 < N →
      getAllNames pages fuel N = some res →
      ∃ k, k ≤ N ∧ res = (List.range k).flatMap pages := by
    intro pages N fuel res hN h
    obtain ⟨k, _, hk2, hk3⟩ := _getAllNames_capped hN fuel 0 [] res (Nat.zero_le _) h
    refine ⟨k, hk2, ?_⟩
    rw [hk3, List.nil_append, Nat.sub_zero, List.range_eq_range']
  refine ⟨hcap, ?_, huncap, ?_⟩
  · intro pages N fuel res hN h
    refine hcap pages N fuel res hN ?_
    rw [← h]
    exact (getAllSubdomains_eq_getAllNames pages fuel 0 [] N).symm
  · intro pages fuel page prior hlen
    rw [getAllSubdomains_eq_getAllNames, getAllSubdomains_eq_getAllNames]
    exact huncap pages fuel page prior hlen

/-- Witness for the amended C1: a capped walk with `N = 1` returns
exactly page 0, and with cap 0 a nonempty page is always followed by a
fetch of the next page. -/
theorem getAllNames_pageCap_witness :
    (∃ k, k ≤ 1 ∧ ["x"] = (List.range k).flatMap pagesEx) ∧
    _getAllNames pagesEx 1 0 [] 0 = _getAllNames pagesEx 0 1 ([] ++ pagesEx 0) 0 :=
  ⟨getAllNames_pageCap.1 pagesEx 1 3 ["x"] (by decide) rfl,
   getAllNames_pageCap.2.2.1 pagesEx 0 0 [] (by decide)⟩

/-- the mutable state of `fetchNames` (src/indexer.js:125-163): the
current `batch`, the accumulated `profiles` (`{profile, fqu}` pairs,
stored here as `(fqu, profile)`), the `errorCount`, and the number of
inter-batch delays issued so far (one per `await promiseTimer(...)`). -/
structure FetchAcc where
  batch : List String
  profiles : List (String × JObj)
  errorCount : Nat
  delays : Nat

/-- `fetchName` (src/indexer.js:112-123): look up one profile (the
lookup service is abstracted as `lookup`; a timeout or failure is
`none`, which the `catch` turns into a `null` result instead of a
propagated error), then sanitize a shallow copy of it. -/
def fetchName (lookup : String → Option JObj) (name : String) :
    Option (String × JObj) :=
  (lookup name).map (fun profile => (name, cleanEntry profile))

/-- the `results.forEach` accumulation inside `fetchNames`: a non-null
result is appended to `profiles`, a null result bumps `errorCount`. -/
def pushResults (acc : FetchAcc) (results : List (Option (String × JObj))) : FetchAcc :=
  results.foldl (fun a r =>
    match r with
    | some kv => { a with profiles := a.profiles ++ [kv] }
    | none => { a with errorCount := a.errorCount + 1 }) acc

/-- one flush of the current batch:
`Promise.all(batch.map(fetchName))` followed by the `forEach`. -/
def processBatch (lookup : String → Option JObj) (acc : FetchAcc) : FetchAcc :=
  pushResults acc (acc.batch.map (fetchName lookup))

/-- the `for (const name of names)` loop of `fetchNames`: when the batch
is full it is flushed, one inter-batch delay is issued and the batch is
reset, then the name is pushed onto the batch. -/
def fetchNamesLoop (lookup : String → Option JObj) (batchSize : Nat) :
    List String → FetchAcc → FetchAcc
  | [], acc => acc
  | name :: rest, acc =>
    let acc1 := if batchSize ≤ acc.batch.length then
        let acc2 := processBatch lookup acc
        { acc2 with delays := acc2.delays + 1, batch := [] }
      else acc
    fetchNamesLoop lookup batchSize rest { acc1 with batch := acc1.batch ++ [name] }

/-- the trailing flush of `fetchNames`: the final partial (or full)
batch is processed without a delay. -/
def fetchNamesFinish (lookup : String → Option JObj) (acc : FetchAcc) : FetchAcc :=
  if 0 < acc.batch.length then processBatch lookup acc else acc

/-- `fetchNames` (src/indexer.js:125-163). -/
def fetchNames (lookup : String → Option JObj) (names : List String)
    (batchSize : Nat) : FetchAcc :=
  fetchNamesFinish lookup (fetchNamesLoop lookup batchSize names ⟨[], [], 0, 0⟩)

theorem pushResults_spec (results : List (Option (String × JObj))) :
    ∀ acc : FetchAcc, pushResults acc results =
      ⟨acc.batch, acc.profiles ++ results.filterMap id,
        acc.errorCount + results.countP (fun r => r.isNone), acc.delays⟩ := by
  induction results with
  | nil =>
    intro acc
    show acc = _
    simp [List.countP_nil]
  | cons r rest ih =>
    intro acc
    cases r with
    | some kv =>
      show pushResults { acc with profiles := acc.profiles ++ [kv] } rest = _
      rw [ih]
      simp [List.countP_cons, List.append_assoc]
    | none =>
      show pushResults { acc with errorCount := acc.errorCount + 1 } rest = _
      rw [ih]
      simp [List.countP_cons]
      omega

theorem processBatch_spec (lookup : String → Option JObj) (acc : FetchAcc) :
    processBatch lookup acc =
      ⟨acc.batch, acc.profiles ++ acc.batch.filterMap (fetchName lookup),
        acc.errorCount + acc.batch.countP (fun n => (lookup n).isNone),
        acc.delays⟩ := by
  unfold processBatch
  rw [pushResults_spec]
  congr 1
  · rw [List.filterMap_map]
    rfl
  · rw [List.countP_map]
    refine congrArg (acc.errorCount + ·) (List.countP_congr fun n _ => ?_)
    show (((fun r : Option (String × JObj) => r.isNone) ∘ fetchName lookup) n = true)
      ↔ ((lookup n).isNone = true)
    simp only [Function.comp]
    unfold fetchName
    cases lookup n <;> simp

/-- how many inter-batch delays the loop issues, as a function of the
remaining names and the current batch length -/
def delayCount (B : Nat) : List String → Nat → Nat
  | [], _ => 0
  | _ :: rest, b => if B ≤ b then 1 + delayCount B rest 1 else delayCount B rest (b + 1)

theorem delayCount_cons (B : Nat) (n : String) (rest : List String) (b : Nat) :
    delayCount B (n :: rest) b
      = if B ≤ b then 1 + delayCount B rest 1 else delayCount B rest (b + 1) := rfl

theorem fetchNamesLoop_delays (lookup : String → Option JObj) (B : Nat) :
    ∀ (names : List String) (acc : FetchAcc),
    (fetchNamesLoop lookup B names acc).delays
      = acc.delays + delayCount B names acc.batch.length := by
  intro names
  induction names with
  | nil => intro acc; rfl
  | cons name rest ih =>
    intro acc
    show (fetchNamesLoop lookup B rest _).delays = _
    rw [delayCount_cons]
    by_cases hb : B ≤ acc.batch.length
    · rw [if_pos hb, if_pos hb, ih]
      show (processBatch lookup acc).delays + 1 + delayCount B rest ([] ++ [name]).length = _
      rw [processBatch_spec]
      show acc.delays + 1 + delayCount B rest 1 = _
      omega
    · rw [if_neg hb, if_neg hb, ih]
      simp [List.length_append]

theorem delayCount_closed {B : Nat} (hB : 0 < B) :
    ∀ (names : List String) (b : Nat), b ≤ B →
    delayCount B names b = (names.length + b - 1) / B := by
  intro names
  induction names with
  | nil =>
    intro b hb
    show 0 = (List.length [] + b - 1) / B
    rw [List.length_nil]
    rw [Nat.div_eq_of_lt (by omega)]
  | cons name rest ih =>
    intro b hb
    rw [delayCount_cons, List.length_cons]
    by_cases hble : B ≤ b
    · have hbB : b = B := le_antisymm hb hble
      rw [if_pos hble, ih 1 (by omega), hbB]
      have h1 : rest.length + 1 - 1 = rest.length := by omega
      have h2 : rest.length + 1 + B - 1 = rest.length + B := by omega
      rw [h1, h2, Nat.add_div_right _ hB]
      omega
    · rw [if_neg hble, ih (b + 1) (by omega)]
      congr 1
      omega

theorem pred_div_form {B : Nat} (M : Nat) (_hB : 0 < B) :
    (M - 1) / B = if M % B = 0 ∧ M ≠ 0 then M / B - 1 else M / B := by
  cases M with
  | zero =>
    rw [if_neg (fun h => h.2 rfl)]
  | succ m =>
    have hs := Nat.succ_div m B
    rw [Nat.add_sub_cancel]
    by_cases hdvd : B ∣ (m + 1)
    · rw [if_pos ⟨Nat.dvd_iff_mod_eq_zero.mp hdvd, Nat.succ_ne_zero m⟩]
      rw [hs, if_pos hdvd, Nat.add_sub_cancel]
    · rw [if_neg (fun hc => hdvd (Nat.dvd_iff_mod_eq_zero.mpr hc.1))]
      rw [hs, if_neg hdvd, Nat.add_zero]

theorem fetchNamesLoop_cons_flush (lookup : String → Option JObj) {B : Nat}
    (name : String) (rest : List String) {acc : FetchAcc}
    (hb : B ≤ acc.batch.length) :
    fetchNamesLoop lookup B (name :: rest) acc
      = fetchNamesLoop lookup B rest
          ⟨[name], (processBatch lookup acc).profiles,
            (processBatch lookup acc).errorCount,
            (processBatch lookup acc).delays + 1⟩ := by
  show fetchNamesLoop lookup B rest _ = _
  rw [if_pos hb]
  rfl

theorem fetchNamesLoop_cons_push (lookup : String → Option JObj) {B : Nat}
    (name : String) (rest : List String) {acc : FetchAcc}
    (hb : ¬ B ≤ acc.batch.length) :
    fetchNamesLoop lookup B (name :: rest) acc
      = fetchNamesLoop lookup B rest
          ⟨acc.batch ++ [name], acc.profiles, acc.errorCount, acc.delays⟩ := by
  show fetchNamesLoop lookup B rest _ = _
  rw [if_neg hb]

theorem fetchNames_loop_profiles (lookup : String → Option JObj) (B : Nat) :
    ∀ (names : List String) (acc : FetchAcc),
    (fetchNamesFinish lookup (fetchNamesLoop lookup B names acc)).profiles
      = acc.profiles ++ (acc.batch ++ names).filterMap (fetchName lookup) := by
  intro names
  induction names with
  | nil =>
    intro acc
    rw [List.append_nil]
    show (fetchNamesFinish lookup acc).profiles = _
    unfold fetchNamesFinish
    by_cases hb : 0 < acc.batch.length
    · rw [if_pos hb, processBatch_spec]
    · rw [if_neg hb]
      rw [List.length_eq_zero.mp (by omega : acc.batch.length = 0)]
      simp
  | cons name rest ih =>
    intro acc
    by_cases hb : B ≤ acc.batch.length
    · rw [fetchNamesLoop_cons_flush lookup name rest hb, ih, processBatch_spec]
      show (acc.profiles ++ acc.batch.filterMap (fetchName lookup))
          ++ ([name] ++ rest).filterMap (fetchName lookup) = _
      rw [List.append_assoc, ← List.filterMap_append, List.singleton_append]
    · rw [fetchNamesLoop_cons_push lookup name rest hb, ih]
      show acc.profiles ++ ((acc.batch ++ [name]) ++ rest).filterMap (fetchName lookup) = _
      rw [List.append_assoc, List.singleton_append]

theorem fetchNames_loop_errors (lookup : String → Option JObj) (B : Nat) :
    ∀ (names : List String) (acc : FetchAcc),
    (fetchNamesFinish lookup (fetchNamesLoop lookup B names acc)).errorCount
      = acc.errorCount + (acc.batch ++ names).countP (fun n => (lookup n).isNone) := by
  intro names
  induction names with
  | nil =>
    intro acc
    rw [List.append_nil]
    show (fetchNamesFinish lookup acc).errorCount = _
    unfold fetchNamesFinish
    by_cases hb : 0 < acc.batch.length
    · rw [if_pos hb, processBatch_spec]
    · rw [if_neg hb]
      rw [List.length_eq_zero.mp (by omega : acc.batch.length = 0)]
      simp
  | cons name rest ih =>
    intro acc
    by_cases hb : B ≤ acc.batch.length
    · rw [fetchNamesLoop_cons_flush lookup name rest hb, ih, processBatch_spec]
      show (acc.errorCount + acc.batch.countP (fun n => (lookup n).isNone))
          + ([name] ++ rest).countP (fun n => (lookup n).isNone) = _
      rw [Nat.add_assoc, ← List.countP_append, List.singleton_append]
    · rw [fetchNamesLoop_cons_push lookup name rest hb, ih]
      show acc.errorCount + ((acc.batch ++ [name]) ++ rest).countP (fun n => (lookup n).isNone) = _
      rw [List.append_assoc, List.singleton_append]

theorem fetchNamesFinish_delays (lookup : String → Option JObj) (acc : FetchAcc) :
    (fetchNamesFinish lookup acc).delays = acc.delays := by
  unfold fetchNamesFinish
  by_cases hb : 0 < acc.batch.length
  · rw [if_pos hb, processBatch_spec]
  · rw [if_neg hb]

/-- **C2.** For every batch size `B > 0` and input list of `M` names,
`fetchNames` issues exactly `M / B - 1` inter-batch delays when `M` is a
positive exact multiple of `B`, and exactly `M / B` delays otherwise; no
delay follows the final (full or partial) batch. -/
theorem fetchNames_delays (lookup : String → Option JObj) (names : List String)
    (B : Nat) (hB : 0 < B) :
    (fetchNames lookup names B).delays =
      if names.length % B = 0 ∧ names.length ≠ 0 then names.length / B - 1
      else names.length / B := by
  unfold fetchNames
  rw [fetchNamesFinish_delays, fetchNamesLoop_delays]
  show 0 + delayCount B names (List.length []) = _
  rw [List.length_nil, delayCount_closed hB names 0 (Nat.zero_le B), Nat.zero_add,
    Nat.add_zero, pred_div_form names.length hB]

/-- Witness for C2: three names with batch size 2 issue one delay
(after the first full batch; none after the trailing partial batch). -/
theorem fetchNames_delays_witness :
    0 < 2 ∧ (fetchNames (fun _ => none) ["a", "b", "c"] 2).delays =
      if ((["a", "b", "c"] : List String).length % 2 = 0
          ∧ (["a", "b", "c"] : List String).length ≠ 0)
      then (["a", "b", "c"] : List String).length / 2 - 1
      else (["a", "b", "c"] : List String).length / 2 :=
  ⟨by decide, fetchNames_delays (fun _ => none) ["a", "b", "c"] 2 (by decide)⟩

/-- the profile lookup of the C3 example: the name "b" always fails
(times out), the others resolve to an empty profile document -/
def exLookupB : String → Option JObj := fun n => if n = "b" then none else some []

/-- **C3.** A name whose profile lookup times out or fails (modelled as
`lookup name = none`, which `fetchName`'s `catch` converts into a `null`
result rather than a propagated rejection — `fetchNames` is a total
function) yields no entry in the output and increments the returned
error count: for every lookup function, name list and batch size, the
returned `profiles` are exactly the successful lookups in order and
`errorCount` counts exactly the failed ones; in particular resolving
`["a","b","c"]` where only "b" fails yields exactly two entries and
`errorCount = 1`. -/
theorem fetchNames_failed_lookups :
    (∀ (lookup : String → Option JObj) (names : List String) (batchSize : Nat),
      (fetchNames lookup names batchSize).profiles
          = names.filterMap (fetchName lookup) ∧
      (fetchNames lookup names batchSize).errorCount
          = names.countP (fun n => (lookup n).isNone)) ∧
    (fetchNames exLookupB ["a", "b", "c"] 5).profiles.length = 2 ∧
    (fetchNames exLookupB ["a", "b", "c"] 5).errorCount = 1 := by
  refine ⟨fun lookup names batchSize => ⟨?_, ?_⟩, rfl, rfl⟩
  · have h := fetchNames_loop_profiles lookup batchSize names ⟨[], [], 0, 0⟩
    rw [List.nil_append] at h
    exact h
  · have h := fetchNames_loop_errors lookup batchSize names ⟨[], [], 0, 0⟩
    rw [List.nil_append] at h
    simpa using h

/-- JavaScript truthiness of an embedded value (`NaN` is not modelled;
profile documents parsed from JSON never contain it) -/
def jsTruthy : JValue → Bool
  | .undefined => false
  | .null => false
  | .bool b => b
  | .num n => n ≠ 0
  | .str s => !s.data.isEmpty
  | .arr _ => true
  | .obj _ => true

/-- property access `v[k]` as an expression: reading a property of
`undefined` or `null` throws a `TypeError` (the `Except` error);
properties of other primitives are `undefined`. -/
def jsGet : JValue → String → Except Unit JValue
  | .obj kvs, k => .ok (getJ kvs k)
  | .undefined, _ => .error ()
  | .null, _ => .error ()
  | _, _ => .ok .undefined

/-- strict equality `v === 'lit'` against a string literal -/
def strictEqStr : JValue → String → Bool
  | .str t, s => t = s
  | _, _ => false

/-- `name.toLocaleLowerCase()` (ASCII lowering; the concrete display
names of the claims are ASCII) -/
def jsToLower (s : String) : String := String.mk (s.data.map Char.toLower)

/-- the `profile.account.forEach` scan of `createSearchIndex`
(src/indexer.js:270-276): the last matching account entry wins; reading
`service`/`identifier` off a `null` element throws. -/
def scanAccounts : List JValue → JValue → JValue → Except Unit (JValue × JValue)
  | [], ob, tw => .ok (ob, tw)
  | a :: rest, ob, tw => do
    let sv ← jsGet a "service"
    if strictEqStr sv "openbazaar" then
      let idv ← jsGet a "identifier"
      scanAccounts rest idv tw
    else if strictEqStr sv "twitter" then
      let idv ← jsGet a "identifier"
      scanAccounts rest ob idv
    else
      scanAccounts rest ob tw

/-- the values the `try` block of the `createSearchIndex` cursor
callback derives from one namespace record -/
structure ProcessedUser where
  name : JValue
  profile : JValue
  openbazaar : JValue
  twitterHandle : JValue
  username : JValue
  fqu : JValue

/-- the `try` body of the cursor callback (src/indexer.js:264-300):
derive the lowercased display name (preferring `name.formatted`), the
openbazaar and twitter handles from the account list, and the record's
`username`/`fqu`.  An `Except.error` is a thrown `TypeError` (missing
`profile`, non-array truthy `account`, non-string truthy name, ...). -/
def processUser (user : JValue) : Except Unit ProcessedUser := do
  let profile ← jsGet user "profile"
  let accountV ← jsGet profile "account"
  let htw ←
    if jsTruthy accountV then
      match accountV with
      | .arr xs => scanAccounts xs .null .null
      | _ => .error ()
    else .ok (JValue.null, JValue.null)
  let nameV0 ← jsGet profile "name"
  let nameV ←
    if jsTruthy nameV0 then do
      let fm ← jsGet nameV0 "formatted"
      let nm := if jsTruthy fm then fm else nameV0
      match nm with
      | .str s => Except.ok (JValue.str (jsToLower s))
      | _ => Except.error ()
    else Except.ok JValue.null
  let fquV ← jsGet user "fqu"
  let usernameV ← jsGet user "username"
  Except.ok ⟨nameV, profile, htw.1, htw.2, usernameV, fquV⟩

/-- the accumulators of `createSearchIndex`: the three cache arrays, the
entries saved to the search-profile collection, and the error list -/
structure SIState where
  peopleNames : List JValue
  twitterHandles : List JValue
  usernames : List JValue
  saved : List JValue
  errors : List JValue

/-- the SearchProfileRecord written for each record
(src/indexer.js:296-300) -/
def mkSearchEntry (r : ProcessedUser) : JValue :=
  .obj [("name", r.name), ("profile", r.profile), ("openbazaar", r.openbazaar),
        ("twitter_handle", r.twitterHandle), ("username", r.username), ("fqu", r.fqu)]

/-- one iteration of the cursor callback: on success push the truthy
derived values onto the caches and save the search entry; on a thrown
error push `user.fqu` onto the error list (reading `user.fqu` inside the
`catch` can itself throw, which rejects the whole pass) and continue. -/
def stepUser (st : SIState) (user : JValue) : Except Unit SIState :=
  match processUser user with
  | .ok r =>
    .ok ⟨st.peopleNames ++ (if jsTruthy r.name then [r.name] else []),
         st.twitterHandles ++ (if jsTruthy r.twitterHandle then [r.twitterHandle] else []),
         st.usernames ++ (if jsTruthy r.fqu then [r.fqu] else []),
         st.saved ++ [mkSearchEntry r],
         st.errors⟩
  | .error _ =>
    match jsGet user "fqu" with
    | .ok fv => .ok ⟨st.peopleNames, st.twitterHandles, st.usernames, st.saved,
        st.errors ++ [fv]⟩
    | .error e => .error e

mutual
/-- structural equality of embedded values, modelling JavaScript `Set`
membership for the primitive values the caches hold -/
def beqV : JValue → JValue → Bool
  | .undefined, .undefined => true
  | .null, .null => true
  | .bool a, .bool b => a = b
  | .num a, .num b => a = b
  | .str a, .str b => a = b
  | .arr a, .arr b => beqA a b
  | .obj a, .obj b => beqL a b
  | _, _ => false
def beqL : JObj → JObj → Bool
  | [], [] => true
  | (k, v) :: r, (k', v') :: r' => k = k' && beqV v v' && beqL r r'
  | _, _ => false
def beqA : List JValue → List JValue → Bool
  | [], [] => true
  | v :: r, v' :: r' => beqV v v' && beqA r r'
  | _, _ => false
end

/-- `[...new Set(arr)]`: deduplicate keeping first occurrences in
insertion order -/
def dedupAux (seen : List JValue) : List JValue → List JValue
  | [] => []
  | v :: rest =>
    if seen.any (fun w => beqV w v) then dedupAux seen rest
    else v :: dedupAux (seen ++ [v]) rest

/-- the deduplicated cache array built from a push list -/
def dedupJS (l : List JValue) : List JValue := dedupAux [] l

/-- the documents `createSearchIndex` leaves behind: saved
SearchProfileRecords, the three cache documents' arrays (written in the
fixed order people, twitter, username), and the logged error list -/
structure SearchIndexResult where
  savedProfiles : List JValue
  peopleCache : List JValue
  twitterCache : List JValue
  usernameCache : List JValue
  errors : List JValue

/-- `createSearchIndex` (src/indexer.js:254-321) over the list of
records the namespace-collection cursor yields, abstracting the store:
the result holds what is saved into each collection. -/
def createSearchIndex (users : List JValue) : Except Unit SearchIndexResult :=
  (List.foldlM stepUser ⟨[], [], [], [], []⟩ users).map fun st =>
    ⟨st.saved, dedupJS st.peopleNames, dedupJS st.twitterHandles,
      dedupJS st.usernames, st.errors⟩

/-- the first namespace record of the C7 example -/
def searchRec1 : JValue :=
  .obj [("fqu", .str "a.id"),
        ("profile", .obj [("name", .obj [("formatted", .str "Alice A")]),
                          ("account", .arr [.obj [("service", .str "twitter"),
                                                  ("identifier", .str "@a")]])])]

/-- the second namespace record of the C7 example -/
def searchRec2 : JValue :=
  .obj [("fqu", .str "b.id"), ("profile", .obj [("name", .str "bob")])]

/-- **C7.** Index building over the two example namespace records
produces a name cache of exactly `["alice a", "bob"]` (display name from
`profile.name`, preferring its nested `formatted` field, lowercased), a
(twitter) handle cache of exactly `["@a"]`, and a username cache of
exactly `["a.id", "b.id"]`, each deduplicated, with no errors. -/
theorem createSearchIndex_example :
    (createSearchIndex [searchRec1, searchRec2]).map
        (fun r => (r.peopleCache, r.twitterCache, r.usernameCache, r.errors))
      = .ok ([JValue.str "alice a", JValue.str "bob"], [JValue.str "@a"],
          [JValue.str "a.id", JValue.str "b.id"], ([] : List JValue)) := rfl

/-- the bad record of the C9 witness: its profile's `account` field is a
truthy non-array, so `profile.account.forEach` throws -/
def badRec : JValue :=
  .obj [("fqu", .str "bad.id"), ("profile", .obj [("account", .num 1)])]

/-- **C9.** A record whose profile throws during account scanning
(`processUser` returns an error) has its `fqu` appended to the error
list, contributes nothing to the three caches nor to the saved search
profiles, and processing continues with the remaining records: folding
the cursor callback over `u :: us2` equals folding over `us2` from a
state extended only by the error entry. -/
theorem stepUser_error (st : SIState) (u : JValue) (fv : JValue) (us2 : List JValue)
    (herr : processUser u = .error ()) (hfqu : jsGet u "fqu" = .ok fv) :
    List.foldlM stepUser st (u :: us2)
      = List.foldlM stepUser
          ⟨st.peopleNames, st.twitterHandles, st.usernames, st.saved,
            st.errors ++ [fv]⟩ us2 := by
  have h1 : stepUser st u = .ok ⟨st.peopleNames, st.twitterHandles, st.usernames,
      st.saved, st.errors ++ [fv]⟩ := by
    unfold stepUser
    rw [herr, hfqu]
  show (stepUser st u >>= fun s => List.foldlM stepUser s us2) = _
  rw [h1]
  rfl

/-- Witness for C9: the bad record's `fqu` lands in the error list and
the fold proceeds with an unchanged (empty) set of accumulators. -/
theorem stepUser_error_witness :
    List.foldlM stepUser ⟨[], [], [], [], []⟩ [badRec]
      = List.foldlM stepUser ⟨[], [], [], [], [] ++ [JValue.str "bad.id"]⟩ [] :=
  stepUser_error ⟨[], [], [], [], []⟩ badRec (JValue.str "bad.id") [] rfl rfl

/-- `username.endsWith('.id')` -/
def jsEndsWith (s t : String) : Bool :=
  decide (s.data.drop (s.data.length - t.data.length) = t.data)

/-- the `username` derivation of `processAllNames`
(src/indexer.js:238-241): strip a trailing `.id` (`slice(0, -3)`), else
keep the name unchanged. -/
def deriveUsername (s : String) : String :=
  if jsEndsWith s ".id" then String.mk (s.data.take (s.data.length - 3)) else s

/-- **C8.** The derived username equals the fully qualified name with
the trailing `.id` suffix removed when the name ends with exactly
`.id` (so username ++ ".id" restores the name), and equals the name
unchanged otherwise. -/
theorem deriveUsername_spec (s : String) :
    (jsEndsWith s ".id" = true → deriveUsername s ++ ".id" = s) ∧
    (jsEndsWith s ".id" = false → deriveUsername s = s) := by
  constructor
  · intro h
    unfold deriveUsername
    rw [if_pos h]
    unfold jsEndsWith at h
    have hd := of_decide_eq_true h
    have hlen : (".id" : String).data.length = 3 := rfl
    rw [hlen] at hd
    refine String.ext ?_
    show (String.mk (s.data.take (s.data.length - 3)) ++ (".id" : String)).data = s.data
    rw [String.data_append]
    show s.data.take (s.data.length - 3) ++ (".id" : String).data = s.data
    conv_rhs => rw [← List.take_append_drop (s.data.length - 3) s.data]
    rw [← hd]
  · intro h
    unfold deriveUsername
    rw [if_neg (by rw [h]; exact Bool.false_ne_true)]

/-- Witness for C8 at the two examples of the claim: `"alice.id"` loses
the suffix (appending it back restores the name), `"bob.test"` is kept
unchanged. -/
theorem deriveUsername_witness :
    (deriveUsername "alice.id" ++ ".id" = "alice.id")
      ∧ deriveUsername "bob.test" = "bob.test" :=
  ⟨(deriveUsername_spec "alice.id").1 (by decide),
   (deriveUsername_spec "bob.test").2 (by decide)⟩

/-- a resolved entry `{ profile, fqu }` as held by `processAllNames`
(from a live fetch, or parsed from the replay files) -/
structure PEntry where
  fqu : JValue
  profile : JValue

/-- a write issued to the document store by `processAllNames`: either a
record `{ key, value }` saved to the profile collection, or a
NamespaceRecord saved to the namespace collection -/
inductive SaveEvent where
  | profileSave : JValue → JValue → SaveEvent
  | namespaceSave : JValue → SaveEvent

def isProfileSave : SaveEvent → Bool
  | .profileSave _ _ => true
  | _ => false

def isNamespaceSave : SaveEvent → Bool
  | .namespaceSave _ => true
  | _ => false

/-- the second mapping pass of `processAllNames`
(src/indexer.js:236-250): derive the username (`endsWith` throws inside
the `try` when `fqu` is not a string — caught, logged, no save) and save
the NamespaceRecord.  By this point the first pass has already sanitized
`entry.profile` in place, so the profile is sanitized twice. -/
def nsSave (e : PEntry) : Option SaveEvent :=
  match e.fqu with
  | .str s => some (.namespaceSave (.obj
      [("username", .str (deriveUsername s)), ("fqu", e.fqu),
       ("profile", cleanEntryV (cleanEntryV e.profile))]))
  | _ => none

/-- `processAllNames` (src/indexer.js:220-252), given the resolved
entries: the sequence of store writes it issues.  The `Promise.all` over
the profile-collection saves settles before the `.then` starts the
namespace-collection saves, so the trace is the concatenation of the two
passes. -/
def processAllNames (profiles : List PEntry) : List SaveEvent :=
  profiles.map (fun e => .profileSave e.fqu (cleanEntryV e.profile))
    ++ profiles.filterMap nsSave

theorem isProfileSave_nsSave {e : PEntry} {ev : SaveEvent} (h : nsSave e = some ev) :
    isProfileSave ev = false := by
  unfold nsSave at h
  cases hf : e.fqu <;> rw [hf] at h
  case str s =>
    obtain rfl := Option.some.inj h
    rfl
  all_goals cases h

/-- **C10.** Each resolved entry yields exactly one durable record
`{ key := fqu, value := sanitized profile }` in the profile collection
(the profile-save events of the trace are exactly one per entry, in
order), and every one of those saves precedes every NamespaceRecord
save in the issued sequence (the `Promise.all` barrier). -/
theorem processAllNames_profile_saves (profiles : List PEntry) :
    ((processAllNames profiles).filter (fun ev => isProfileSave ev))
        = profiles.map (fun e => .profileSave e.fqu (cleanEntryV e.profile)) ∧
    (∀ (i j : Nat) (hi : i < (processAllNames profiles).length)
        (hj : j < (processAllNames profiles).length),
      isProfileSave ((processAllNames profiles).get ⟨i, hi⟩) = true →
      isNamespaceSave ((processAllNames profiles).get ⟨j, hj⟩) = true → i < j) := by
  constructor
  · unfold processAllNames
    rw [List.filter_append]
    have h1 : (profiles.map (fun e =>
        SaveEvent.profileSave e.fqu (cleanEntryV e.profile))).filter
          (fun ev => isProfileSave ev)
        = profiles.map (fun e => SaveEvent.profileSave e.fqu (cleanEntryV e.profile)) := by
      refine List.filter_eq_self.mpr fun ev hev => ?_
      rcases List.mem_map.mp hev with ⟨e, _, rfl⟩
      rfl
    have h2 : (profiles.filterMap nsSave).filter (fun ev => isProfileSave ev) = [] := by
      refine List.filter_eq_nil_iff.mpr fun ev hev => ?_
      rcases List.mem_filterMap.mp hev with ⟨e, _, he⟩
      rw [isProfileSave_nsSave he]
      exact Bool.false_ne_true
    rw [h1, h2, List.append_nil]
  · intro i j hi hj hpi hnj
    have hlenA : (profiles.map (fun e =>
        SaveEvent.profileSave e.fqu (cleanEntryV e.profile))).length
        = profiles.length := List.length_map _ _
    have hiM : i < profiles.length := by
      by_contra hge
      have hA : (profiles.map (fun e =>
          SaveEvent.profileSave e.fqu (cleanEntryV e.profile))).length ≤ i := by
        omega
      have hmem : (processAllNames profiles).get ⟨i, hi⟩ ∈ profiles.filterMap nsSave := by
        unfold processAllNames at hi ⊢
        rw [List.get_eq_getElem, List.getElem_append_right hA]
        exact List.getElem_mem _
      rcases List.mem_filterMap.mp hmem with ⟨e, _, he⟩
      rw [isProfileSave_nsSave he] at hpi
      cases hpi
    have hjM : profiles.length ≤ j := by
      by_contra hlt
      have hjA : j < (profiles.map (fun e =>
          SaveEvent.profileSave e.fqu (cleanEntryV e.profile))).length := by
        omega
      have : (processAllNames profiles).get ⟨j, hj⟩
          = SaveEvent.profileSave (profiles.get ⟨j, by omega⟩).fqu
              (cleanEntryV (profiles.get ⟨j, by omega⟩).profile) := by
        unfold processAllNames at hj ⊢
        rw [List.get_eq_getElem, List.getElem_append_left hjA, List.getElem_map]
        rfl
      rw [this] at hnj
      cases hnj
    omega

/-- Witness for C10: a single resolved entry produces its profile save
(first) and its namespace save (second). -/
theorem processAllNames_profile_saves_witness :
    ((processAllNames [⟨JValue.str "a.id", JValue.obj []⟩]).filter
        (fun ev => isProfileSave ev))
      = ([⟨JValue.str "a.id", JValue.obj []⟩] : List PEntry).map
          (fun e => .profileSave e.fqu (cleanEntryV e.profile)) ∧
    (0 : Nat) < 1 :=
  ⟨(processAllNames_profile_saves [⟨JValue.str "a.id", JValue.obj []⟩]).1,
   (processAllNames_profile_saves [⟨JValue.str "a.id", JValue.obj []⟩]).2 0 1
     (by decide) (by decide) (by decide) (by decide)⟩
